import Mathlib

/-!
Verification of the rcli command-line dispatch layer.

This file shallowly embeds the core of the `rcli` repository:

* the type-casting engine (`rcli/typing.py`: `cast`, `_get_cast_types`,
  `_cast_tuple` and the `Singleton` metaclass),
* the parameter binders (`rcli/dispatcher.py`: `_normalize`/`_norm`;
  `rcli/call.py`: `call`/`_normalize`) together with the error type
  `InvalidCliValueError` (`rcli/exceptions.py`),
* the usage-text processor (`rcli/usage.py`: `format_usage`, `_merge_doc`,
  `_merge_section`, `_get_section`, `_wrap_section` and its helpers).

Python values that flow through these functions (docopt results and cast
results) are modelled by the inductive type `Value`; Python type objects /
typing descriptors by `Ty`; exceptions by `PyErr` and `Except`.
Strings are modelled as Lean `String`s (ASCII fragment; the repository
manipulates ASCII usage text and CLI keys), and the usage-text processor
works on `List Char` for ease of reasoning.
-/

namespace RCli

/-- A Python value as it appears in parsed docopt arguments and cast
results: `None`, booleans, integers, strings, lists and tuples. -/
inductive Value : Type
  | vNone
  | bool (b : Bool)
  | int (n : Int)
  | str (s : String)
  | list (vs : List Value)
  | tuple (vs : List Value)

/-- A type descriptor as handed to `rcli.typing.cast`: `Any`, the scalar
constructors `int` and `str`, `Union[...]` (with its `__args__`) and
`Tuple[...]` (with its element types; `variadic` records that the Python
type was written `Tuple[T, ...]`, i.e. its `__args__` end in `Ellipsis`).
`variadic = true` corresponds to exactly one element descriptor, matching
the shapes Python typing can express. -/
inductive Ty : Type
  | any
  | intTy
  | strTy
  | union (args : List Ty)
  | tup (elems : List Ty) (variadic : Bool)

/-- A Python exception escaping from the casting engine: `CastError`
(which carries the attempted descriptor and raw value) or a plain
`TypeError` raised by the runtime (e.g. iterating a non-iterable).
Both derive from `TypeError` in `rcli/exceptions.py`. -/
inductive PyErr : Type
  | castErr (t : Ty) (v : Value)
  | typeErr

/-- The whitespace characters of Python `str.strip` / `\s` (ASCII part). -/
def pyIsSpace (c : Char) : Bool :=
  c = ' ' || c = '\t' || c = '\n' || c = '\r' || c = '\x0b' || c = '\x0c'

/-- Parses a digit string as Python `int()` does after sign handling:
digits with single underscores allowed between digits (`1_000`), no
leading, trailing or doubled underscores.  `prevDigit` records whether the
previous character was a digit. -/
def parseDigitsU (acc : Nat) (prevDigit : Bool) : List Char → Option Nat
  | [] => if prevDigit then some acc else none
  | c :: rest =>
    if c.isDigit then parseDigitsU (acc * 10 + (c.toNat - 48)) true rest
    else if c = '_' then
      if prevDigit then
        match rest with
        | d :: _ => if d.isDigit then parseDigitsU acc false rest else none
        | [] => none
      else none
    else none

/-- Models Python `int(s)` on a string: strip whitespace, optional sign,
then digits (ASCII fragment).  `none` models the `ValueError` raised on
unparsable input. -/
def pyIntOfString (s : String) : Option Int :=
  let cs := (s.toList.dropWhile pyIsSpace).reverse.dropWhile pyIsSpace |>.reverse
  match cs with
  | '+' :: rest => (parseDigitsU 0 false rest).map Int.ofNat
  | '-' :: rest => (parseDigitsU 0 false rest).map (fun n => -(n : Int))
  | rest => (parseDigitsU 0 false rest).map Int.ofNat

/-- ASCII lower-casing of a character, as used by Python `str.lower` on
the ASCII fragment this repository manipulates. -/
def charLower (c : Char) : Char :=
  match c with
  | 'A' => 'a' | 'B' => 'b' | 'C' => 'c' | 'D' => 'd' | 'E' => 'e'
  | 'F' => 'f' | 'G' => 'g' | 'H' => 'h' | 'I' => 'i' | 'J' => 'j'
  | 'K' => 'k' | 'L' => 'l' | 'M' => 'm' | 'N' => 'n' | 'O' => 'o'
  | 'P' => 'p' | 'Q' => 'q' | 'R' => 'r' | 'S' => 's' | 'T' => 't'
  | 'U' => 'u' | 'V' => 'v' | 'W' => 'w' | 'X' => 'x' | 'Y' => 'y'
  | 'Z' => 'z'
  | other => other

/-- The apostrophe character (Python uses it to quote string reprs). -/
def squote : Char := Char.ofNat 39

/-- Escapes one character inside a Python string repr quoted by `quote`. -/
def pyEscapeChar (quote : Char) (c : Char) : String :=
  if c = '\\' then "\\\\"
  else if c = quote then String.mk ['\\', quote]
  else if c = '\n' then "\\n"
  else if c = '\r' then "\\r"
  else if c = '\t' then "\\t"
  else String.mk [c]

/-- Models Python `repr` of a string: single quotes, or double quotes when
the string contains a single quote but no double quote. -/
def pyReprStr (s : String) : String :=
  let q := if s.toList.contains squote && !(s.toList.contains '"') then '"' else squote
  String.mk [q] ++ String.join (s.toList.map (pyEscapeChar q)) ++ String.mk [q]

mutual

/-- Models Python `repr` on modelled values. -/
def pyRepr : Value → String
  | .vNone => "None"
  | .bool b => if b then "True" else "False"
  | .int n => toString n
  | .str s => pyReprStr s
  | .list vs => "[" ++ pyReprItems vs ++ "]"
  | .tuple [] => "()"
  | .tuple [v] => "(" ++ pyRepr v ++ ",)"
  | .tuple vs => "(" ++ pyReprItems vs ++ ")"

/-- Comma-separated reprs of container items. -/
def pyReprItems : List Value → String
  | [] => ""
  | [v] => pyRepr v
  | v :: rest => pyRepr v ++ ", " ++ pyReprItems rest

end

/-- Models Python `str(value)`: identity on strings, `repr`-like rendering
otherwise. -/
def pyStr : Value → String
  | .str s => s
  | v => pyRepr v

/-- Models Python iteration (`tuple(values)`, `for val in values`, `len`):
lists and tuples yield their items; a string yields its characters as
one-character strings; other values are not iterable (`TypeError`). -/
def pyIter : Value → Option (List Value)
  | .list vs => some vs
  | .tuple vs => some vs
  | .str s => some (s.toList.map (fun c => Value.str (String.mk [c])))
  | _ => none

/-- Models `callable(type_)` on the modelled descriptors: the scalar
constructors `int`/`str` and subscripted `Tuple` objects (which are types
under the old `typing` module) are callable; `Any` and `Union[...]`
objects are not. -/
def callableTy : Ty → Bool
  | .intTy => true
  | .strTy => true
  | .tup _ _ => true
  | .any => false
  | .union _ => false

/-- Models the `__constraints__`/`__args__` lookup of
`rcli.typing._get_cast_types`: only `Union` and subscripted `Tuple`
descriptors carry `__args__`. -/
def tyArgs : Ty → List Ty
  | .union args => args
  | .tup elems _ => elems
  | _ => []

/-- Embeds `rcli.typing._get_cast_types`: the descriptor itself when it is
callable, followed by its `__constraints__`/`__args__`. -/
def getCastTypes (t : Ty) : List Ty :=
  (if callableTy t then [t] else []) ++ tyArgs t

/-- Models one `typ(value)` constructor call inside the loop of
`rcli.typing.cast`.  `none` models the `TypeError`/`ValueError` the loop
catches: `int()` fails on unparsable strings and non-numbers, `str()`
always succeeds, and `Any`/`Union`/`Tuple` objects raise `TypeError` when
called (typing generics cannot be instantiated). -/
def tryCtor : Ty → Value → Option Value
  | .intTy, .str s => (pyIntOfString s).map Value.int
  | .intTy, .int n => some (.int n)
  | .intTy, .bool b => some (.int (if b then 1 else 0))
  | .intTy, _ => none
  | .strTy, v => some (.str (pyStr v))
  | _, _ => none

/-- Embeds the `for typ in _get_cast_types(type_)` loop of
`rcli.typing.cast`: first successful constructor call wins; when the list
is exhausted, `CastError(type_, value)` is raised. -/
def tryCastTypes (t : Ty) (v : Value) : List Ty → Except PyErr Value
  | [] => .error (.castErr t v)
  | c :: rest =>
    match tryCtor c v with
    | some r => .ok r
    | none => tryCastTypes t v rest

/-- Models `isinstance(type_, type) and issubclass(type_, _SEQUENCE_TYPES)`
in `rcli.typing.cast`: among the modelled descriptors only subscripted
`Tuple` objects are sequence types (`int`/`str` are types but not
sequences; `Any`/`Union` objects are not types). -/
def isSeqTy : Ty → Bool
  | .tup _ _ => true
  | _ => false

mutual

/-- Embeds `rcli.typing.cast` on the modelled descriptors.  `Any` returns
the value unchanged; subscripted `Tuple` descriptors take the sequence
path into `_cast_tuple`; every other descriptor goes through the
`_get_cast_types` loop. -/
def cast : Ty → Value → Except PyErr Value
  | .any, v => .ok v
  | .tup elems variadic, v => castTuple elems variadic v
  | t, v => tryCastTypes t v (getCastTypes t)
termination_by t _ => (sizeOf t, 0)
decreasing_by all_goals (first | (apply Prod.Lex.left; simp_wf <;> omega) | (apply Prod.Lex.right; simp_wf <;> omega))

/-- Embeds `rcli.typing._cast_tuple`.  With no element descriptors
(`tuple_types` empty, i.e. a bare `Tuple`) the raw value is converted to a
tuple unchanged.  The variadic shape (`Tuple[T, ...]`, exactly one element
descriptor) casts every raw value with the repeating descriptor.  A
non-variadic descriptor requires the raw length to equal the number of
element descriptors and otherwise raises `CastError(type_, values)`. -/
def castTuple (elems : List Ty) (variadic : Bool) (v : Value) : Except PyErr Value :=
  match pyIter v with
  | none => .error .typeErr
  | some vs =>
    match elems with
    | [] => .ok (.tuple vs)
    | t0 :: restTys =>
      if variadic && restTys.isEmpty then
        match castEach t0 vs with
        | .error e => .error e
        | .ok ws => .ok (.tuple ws)
      else if vs.length ≠ elems.length then
        .error (.castErr (.tup elems variadic) v)
      else
        match castZip (t0 :: restTys) vs with
        | .error e => .error e
        | .ok ws => .ok (.tuple ws)
termination_by (sizeOf elems, 1)
decreasing_by all_goals (first | (apply Prod.Lex.left; simp_wf <;> omega) | (apply Prod.Lex.right; simp_wf <;> omega))

/-- Embeds the comprehension `[cast(tuple_types[0], val) for val in values]`:
each value cast with the same descriptor, first failure propagating. -/
def castEach (t : Ty) : List Value → Except PyErr (List Value)
  | [] => .ok []
  | v :: vs =>
    match cast t v with
    | .error e => .error e
    | .ok w =>
      match castEach t vs with
      | .error e => .error e
      | .ok ws => .ok (w :: ws)
termination_by vs => (sizeOf t, vs.length + 2)
decreasing_by all_goals (first | (apply Prod.Lex.left; simp_wf <;> omega) | (apply Prod.Lex.right; simp_wf <;> omega))

/-- Embeds `[cast(typ, val) for typ, val in zip(tuple_types, values)]`. -/
def castZip : List Ty → List Value → Except PyErr (List Value)
  | [], _ => .ok []
  | _ :: _, [] => .ok []
  | t :: ts, v :: vs =>
    match cast t v with
    | .error e => .error e
    | .ok w =>
      match castZip ts vs with
      | .error e => .error e
      | .ok ws => .ok (w :: ws)
termination_by ts _ => (sizeOf ts, 0)
decreasing_by all_goals (first | (apply Prod.Lex.left; simp_wf <;> omega) | (apply Prod.Lex.right; simp_wf <;> omega))

end

/-- Unfolding equation of `cast` at the `Any` descriptor. -/
lemma cast_any (v : Value) : cast .any v = .ok v := by
  simp [cast]

/-- Unfolding equation of `cast` at the `int` scalar descriptor. -/
lemma cast_intTy (v : Value) : cast .intTy v = tryCastTypes .intTy v [.intTy] := by
  simp [cast, getCastTypes, callableTy, tyArgs]

/-- Unfolding equation of `cast` at the `str` scalar descriptor. -/
lemma cast_strTy (v : Value) : cast .strTy v = tryCastTypes .strTy v [.strTy] := by
  simp [cast, getCastTypes, callableTy, tyArgs]

/-- Unfolding equation of `cast` at a `Union` descriptor: a `Union` object
is not callable, so the constraint loop runs over exactly its `__args__`
in order. -/
lemma cast_union (args : List Ty) (v : Value) :
    cast (.union args) v = tryCastTypes (.union args) v args := by
  simp [cast, getCastTypes, callableTy, tyArgs]

/-- Unfolding equation of `cast` at a `Tuple` descriptor: the sequence
branch dispatches to `_cast_tuple`. -/
lemma cast_tup (elems : List Ty) (b : Bool) (v : Value) :
    cast (.tup elems b) v = castTuple elems b v := by
  simp [cast]

/-- When every constraint's constructor call fails, the loop in `cast`
falls through to `CastError(type_, value)`. -/
lemma tryCastTypes_all_none (t : Ty) (v : Value) (l : List Ty)
    (h : ∀ u ∈ l, tryCtor u v = none) :
    tryCastTypes t v l = .error (.castErr t v) := by
  induction l with
  | nil => rfl
  | cons c rest ih =>
    have hc : tryCtor c v = none := h c (List.mem_cons_self c rest)
    show (match tryCtor c v with
      | some r => Except.ok r
      | none => tryCastTypes t v rest) = Except.error (.castErr t v)
    rw [hc]
    exact ih (fun u hu => h u (List.mem_cons_of_mem c hu))

/-- The loop in `cast` returns the first successful constructor call. -/
lemma tryCastTypes_found (t : Ty) (v : Value) (pre : List Ty) (t0 : Ty)
    (post : List Ty) (r : Value)
    (hpre : ∀ u ∈ pre, tryCtor u v = none) (ht : tryCtor t0 v = some r) :
    tryCastTypes t v (pre ++ t0 :: post) = .ok r := by
  induction pre with
  | nil =>
    show (match tryCtor t0 v with
      | some r => Except.ok r
      | none => tryCastTypes t v post) = Except.ok r
    rw [ht]
  | cons c rest ih =>
    have hc : tryCtor c v = none := hpre c (List.mem_cons_self c rest)
    show (match tryCtor c v with
      | some r => Except.ok r
      | none => tryCastTypes t v (rest ++ t0 :: post)) = Except.ok r
    rw [hc]
    exact ih (fun u hu => hpre u (List.mem_cons_of_mem c hu))

/-- C1: for every cast with a `Union` descriptor, the constraints are
attempted left to right and the first successful cast is returned; if
every constraint fails, a `CastError` referencing the outermost `Union`
descriptor is raised.  The witness instantiates this at
`Union([Scalar(int), Scalar(str)])` over `"abc"`, which yields the string
`"abc"`. -/
theorem union_cast_first_success (args : List Ty) (v : Value) :
    ((∀ u ∈ args, tryCtor u v = none) →
      cast (.union args) v = .error (.castErr (.union args) v)) ∧
    (∀ pre t0 post r, args = pre ++ t0 :: post →
      (∀ u ∈ pre, tryCtor u v = none) → tryCtor t0 v = some r →
      cast (.union args) v = .ok r) := by
  constructor
  · intro h
    rw [cast_union]
    exact tryCastTypes_all_none _ v args h
  · intro pre t0 post r hsplit hpre ht
    rw [cast_union, hsplit]
    exact tryCastTypes_found _ v pre t0 post r hpre ht

/-- Witness for C1: `Union([Scalar(int), Scalar(str)])` cast over `"abc"`
fails the `int` constructor and succeeds with `str`, yielding `"abc"`. -/
theorem union_cast_first_success_witness :
    cast (.union [.intTy, .strTy]) (.str "abc") = .ok (.str "abc") :=
  (union_cast_first_success [.intTy, .strTy] (.str "abc")).2 [.intTy] .strTy []
    (.str "abc") rfl
    (fun u hu => by rw [List.mem_singleton] at hu; subst hu; rfl) rfl

/-- C2: for every non-variadic `Tuple` descriptor with a non-empty list of
element descriptors and every raw value list whose length differs from the
number of element descriptors, `cast` raises `CastError` (and returns no
partial tuple).  The witness instantiates the empty raw list against a
non-variadic `Tuple` of length 1. -/
theorem nonvariadic_tuple_length_mismatch (elems : List Ty) (vs : List Value)
    (hne : elems ≠ []) (hlen : vs.length ≠ elems.length) :
    cast (.tup elems false) (.list vs) =
      .error (.castErr (.tup elems false) (.list vs)) := by
  rw [cast_tup]
  match elems, hne with
  | t0 :: rest, _ =>
    simp only [castTuple, pyIter]
    rw [if_neg (by simp), if_pos hlen]

/-- Witness for C2: the empty raw list cast to the non-variadic
`Tuple[int]` is a `CastError`. -/
theorem nonvariadic_tuple_length_mismatch_witness :
    cast (.tup [.intTy] false) (.list []) =
      .error (.castErr (.tup [.intTy] false) (.list [])) :=
  nonvariadic_tuple_length_mismatch [.intTy] [] (by simp) (by simp)

/-- The comprehension over a variadic tuple's raw values succeeds exactly
pointwise. -/
lemma castEach_of_forall₂ (t : Ty) (vs ws : List Value)
    (h : List.Forall₂ (fun v w => cast t v = .ok w) vs ws) :
    castEach t vs = .ok ws := by
  induction h with
  | nil => simp [castEach]
  | cons hvw _ ih => simp [castEach, hvw, ih]

/-- C3: casting a raw list with a variadic tuple descriptor
(`Tuple[T, ...]`) casts every value in the raw list with the repeating
element descriptor and collects the results into a tuple.  The witness
instantiates this at `Tuple([Scalar(int)], variadic=True)` over
`["1","2","3"]`, yielding `(1, 2, 3)`. -/
theorem variadic_tuple_casts_every_value (t : Ty) (vs ws : List Value)
    (h : List.Forall₂ (fun v w => cast t v = .ok w) vs ws) :
    cast (.tup [t] true) (.list vs) = .ok (.tuple ws) := by
  rw [cast_tup]
  simp [castTuple, pyIter, castEach_of_forall₂ t vs ws h]

/-- Witness for C3: `Tuple([Scalar(int)], variadic=True)` cast over
`["1","2","3"]` yields `(1, 2, 3)`. -/
theorem variadic_tuple_casts_every_value_witness :
    cast (.tup [.intTy] true) (.list [.str "1", .str "2", .str "3"]) =
      .ok (.tuple [.int 1, .int 2, .int 3]) :=
  variadic_tuple_casts_every_value .intTy _ _
    (.cons (by rw [cast_intTy]; rfl)
      (.cons (by rw [cast_intTy]; rfl)
        (.cons (by rw [cast_intTy]; rfl) .nil)))

/-! ### The `Singleton` metaclass (`rcli/typing.py`, lines 82-92) -/

/-- Embeds `Singleton.__call__` for one class.  `stored` is the class
attribute `__instance__` (`none` models the initial `None`); `truthy`
gives the truthiness of class instances (Python evaluates
`not cls.__instance__`); `make` models `super().__call__(*args, **kwargs)`
on the argument package `arg`.  Returns the call result, the new stored
instance, and whether the underlying class was instantiated by this
call. -/
def singletonCall {α : Type} (truthy : α → Bool) (make : Nat → α)
    (stored : Option α) (arg : Nat) : α × Option α × Bool :=
  match stored with
  | none => (make arg, some (make arg), true)
  | some a =>
    if truthy a then (a, some a, false)
    else (make arg, some (make arg), true)

/-- Runs a sequence of calls of a class with the `Singleton` metaclass,
returning the list of call results, the final stored `__instance__`, and
how many times the underlying class was instantiated. -/
def singletonRun {α : Type} (truthy : α → Bool) (make : Nat → α) :
    Option α → List Nat → List α × Option α × Nat
  | stored, [] => ([], stored, 0)
  | stored, arg :: rest =>
    let step := singletonCall truthy make stored arg
    let next := singletonRun truthy make step.2.1 rest
    (step.1 :: next.1, next.2.1, (if step.2.2 then 1 else 0) + next.2.2)

/-- C10: the claim (and the docstring of `Singleton`) says a class with
this metaclass is instantiated at most once, but `Singleton.__call__`
tests `not cls.__instance__` — truthiness, not `is None` — so a class
whose instances are falsy is re-instantiated on every call: two calls on a
class whose constructed instances are falsy perform two instantiations. -/
theorem singleton_falsy_instance_reinstantiated :
    singletonRun (fun b => b) (fun _ => false) none [0, 1] =
      ([false, false], some false, 2) := rfl

/-! ### The dispatcher's parameter binder (`rcli/dispatcher.py`, `_normalize`) -/

/-- Truthiness test for the null marker (`value is None`). -/
def Value.isNone : Value → Bool
  | .vNone => true
  | _ => false

/-- Lookup in an insertion-ordered dict modelled as an association list. -/
def alGet {β : Type} (d : List (String × β)) (k : String) : Option β :=
  match d with
  | [] => none
  | (k0, v0) :: rest => if k0 = k then some v0 else alGet rest k

/-- Assignment `d[k] = v` in an insertion-ordered dict: updates the entry
in place when present, appends it otherwise. -/
def alSet {β : Type} (d : List (String × β)) (k : String) (v : β) :
    List (String × β) :=
  match d with
  | [] => [(k, v)]
  | (k0, v0) :: rest => if k0 = k then (k0, v) :: rest else (k0, v0) :: alSet rest k v

/-- Models `args[nk].append(v)`: only list values support `append`
(anything else raises `AttributeError`, modelled as `none`). -/
def pyAppend : Value → Value → Option Value
  | .list xs, v => some (.list (xs ++ [v]))
  | _, _ => none

/-- Embeds the key normalization `_norm` nested inside
`rcli.dispatcher._normalize`: strip one leading `--`, then one leading
`-`, strip surrounding `<`/`>`, lower-case (ASCII) and replace `-` with
`_`. -/
def dispNorm (k : String) : String :=
  let k1 := match k.toList with
    | '-' :: '-' :: rest => rest
    | cs => cs
  let k2 := match k1 with
    | '-' :: rest => rest
    | cs => cs
  let k3 := match k2 with
    | '<' :: rest => if rest.getLast? = some '>' then rest.dropLast else '<' :: rest
    | cs => cs
  String.mk (k3.map (fun c => if charLower c = '-' then '_' else charLower c))

/-- The loop state of `rcli.dispatcher._normalize`: the normalized
argument dict `args` and the `multi_args` set. -/
structure BindSt where
  args : List (String × Value)
  multi : List String

/-- Embeds one iteration of the `for k, v in six.iteritems(cli_args)` loop
of `rcli.dispatcher._normalize`.  The `.error` case models the
`AttributeError` Python would raise if `args[nk].append(v)` ran on a
non-list (unreachable from the empty initial state). -/
def normStep (params : List String) (st : BindSt) (kv : String × Value) :
    Except Unit BindSt :=
  let nk := dispNorm kv.1
  let v := kv.2
  if nk ∈ params then
    match alGet st.args nk with
    | none => .ok { st with args := alSet st.args nk v }
    | some old =>
      if old.isNone then .ok { st with args := alSet st.args nk v }
      else if st.multi.contains nk && !v.isNone then
        match pyAppend old v with
        | some appended => .ok { st with args := alSet st.args nk appended }
        | none => .error ()
      else if !v.isNone then
        .ok { args := alSet st.args nk (.list [old, v]), multi := nk :: st.multi }
      else .ok st
  else .ok st

/-- Embeds `rcli.dispatcher._normalize`: fold the docopt result (an
insertion-ordered key/value sequence) through `normStep` starting from
empty `args` and `multi_args`, and return the normalized dict. -/
def dispNormalize (params : List String) (cliArgs : List (String × Value)) :
    Except Unit (List (String × Value)) :=
  (cliArgs.foldlM (normStep params) ⟨[], []⟩).map BindSt.args

/-- The raw values bound to normalized key `nk` across a parsed-argument
sequence, in iteration order. -/
def valuesFor (nk : String) (cliArgs : List (String × Value)) : List Value :=
  (cliArgs.filter (fun kv => dispNorm kv.1 == nk)).map (fun kv => kv.2)

/-- The binding described by the spec for a key occurring several times:
all non-null occurrences coalesced into a list once there are at least
two, the single non-null value when there is exactly one, `None` when the
key only ever carried null values, absent when the key never occurred. -/
def coalesced (vs : List Value) : Option Value :=
  if vs.isEmpty then none
  else
    match vs.filter (fun v => !v.isNone) with
    | [] => some .vNone
    | [x] => some x
    | nn => some (.list nn)

/-- The relation `_normalize` maintains between the values seen so far for
a normalized key, its entry in `args`, and its membership in
`multi_args`. -/
def entryRel (vs : List Value) (entry : Option Value) (mlt : Bool) : Prop :=
  entry = coalesced vs ∧
    (mlt = true ↔ 2 ≤ (vs.filter (fun v => !v.isNone)).length)

lemma alGet_alSet_self {β : Type} (d : List (String × β)) (k : String) (v : β) :
    alGet (alSet d k v) k = some v := by
  induction d with
  | nil => simp [alGet, alSet]
  | cons kv rest ih =>
    obtain ⟨k0, v0⟩ := kv
    by_cases h : k0 = k <;> simp [alGet, alSet, h, ih]

lemma alGet_alSet_ne {β : Type} (d : List (String × β)) (k k' : String) (v : β)
    (h : k' ≠ k) : alGet (alSet d k v) k' = alGet d k' := by
  have hkk : ¬ k = k' := fun hh => h hh.symm
  induction d with
  | nil => simp [alGet, alSet, hkk]
  | cons kv rest ih =>
    obtain ⟨k0, v0⟩ := kv
    by_cases h0 : k0 = k
    · subst h0
      simp [alGet, alSet, hkk]
    · simp [alGet, alSet, h0, ih]

lemma coalesced_eq_none_iff (vs : List Value) : coalesced vs = none ↔ vs = [] := by
  cases vs with
  | nil => simp [coalesced]
  | cons v rest =>
    simp only [coalesced, List.isEmpty_cons, if_false, Bool.false_eq_true]
    constructor
    · intro h
      exfalso
      revert h
      split <;> simp
    · intro h
      exact absurd h (List.cons_ne_nil v rest)

/-- Appending one observed value updates `entryRel` the way the
first/overwrite-null branch of `_normalize` does. -/
lemma entryRel_first (vs : List Value) (mlt : Bool) (v : Value)
    (h : entryRel vs none mlt) : entryRel (vs ++ [v]) (some v) mlt := by
  obtain ⟨h1, h2⟩ := h
  have hnil : vs = [] := (coalesced_eq_none_iff vs).mp h1.symm
  subst hnil
  simp only [List.nil_append]
  constructor
  · cases hv : v.isNone
    · simp [coalesced, List.filter, hv]
    · have : v = .vNone := by cases v <;> simp_all [Value.isNone]
      subst this
      simp [coalesced, List.filter, Value.isNone]
  · have hlen : (([v] : List Value).filter (fun w => !w.isNone)).length ≤ 1 := by
      cases hv : v.isNone <;> simp [hv]
    have hlen0 : ((([] : List Value)).filter (fun w => !w.isNone)).length = 0 := by simp
    rw [hlen0] at h2
    constructor
    · intro hm
      exact absurd (h2.mp hm) (by omega)
    · intro hc
      exact absurd hc (by omega)

lemma coalesced_cons (a : Value) (l : List Value) :
    coalesced (a :: l) = match (a :: l).filter (fun v => !v.isNone) with
      | [] => some .vNone
      | [x] => some x
      | nn => some (.list nn) := rfl

/-- Inversion on `coalesced vs = some r`: either the key only carried
nulls, or exactly one non-null value, or at least two (coalesced as a
list). -/
lemma coalesced_some_inv (vs : List Value) (r : Value)
    (h : coalesced vs = some r) :
    (vs.filter (fun v => !v.isNone) = [] ∧ r = .vNone) ∨
    (vs.filter (fun v => !v.isNone) = [r] ∧ r.isNone = false) ∨
    (2 ≤ (vs.filter (fun v => !v.isNone)).length ∧
      r = .list (vs.filter (fun v => !v.isNone))) := by
  cases vs with
  | nil => simp [coalesced] at h
  | cons a l =>
    rw [coalesced_cons] at h
    rcases hnn : (a :: l).filter (fun v => !v.isNone) with _ | ⟨x, _ | ⟨y, rest⟩⟩ <;>
      rw [hnn] at h
    · left
      exact ⟨hnn, by injection h with h; exact h.symm⟩
    · right; left
      have hx : x ∈ (a :: l).filter (fun v => !v.isNone) := by
        rw [hnn]; exact List.mem_singleton_self x
      have hxn : (!x.isNone) = true := (List.mem_filter.mp hx).2
      injection h with h
      subst h
      exact ⟨hnn, by simpa using hxn⟩
    · right; right
      injection h with h
      refine ⟨?_, ?_⟩
      · rw [hnn]; simp
      · rw [hnn]; exact h.symm

lemma entryRel_ne_nil (vs : List Value) (entry : Value) (mlt : Bool)
    (h : entryRel vs (some entry) mlt) : vs ≠ [] := by
  intro hvs
  subst hvs
  exact Option.noConfusion h.1

/-- When at least two non-null values were seen, the coalesced binding is
their list. -/
lemma coalesced_eq_list_of_two_le (vs : List Value) (hne : vs ≠ [])
    (h2 : 2 ≤ (vs.filter (fun w => !w.isNone)).length) :
    coalesced vs = some (.list (vs.filter (fun w => !w.isNone))) := by
  obtain ⟨a, l, rfl⟩ := List.exists_cons_of_ne_nil hne
  rw [coalesced_cons]
  rcases hnn : (a :: l).filter (fun w => !w.isNone) with _ | ⟨x, _ | ⟨y, rest⟩⟩
  · rw [hnn] at h2; simp at h2
  · rw [hnn] at h2; simp at h2
  · rw [hnn]

/-- Appending one observed null value leaves the coalesced binding
unchanged. -/
lemma coalesced_append_null (vs : List Value) (hne : vs ≠ []) (v : Value)
    (hv : v.isNone = true) : coalesced (vs ++ [v]) = coalesced vs := by
  cases vs with
  | nil => exact absurd rfl hne
  | cons a l =>
    rw [List.cons_append, coalesced_cons, coalesced_cons]
    have hfe : (a :: (l ++ [v])).filter (fun w => !w.isNone) =
        (a :: l).filter (fun w => !w.isNone) := by
      have : (l ++ [v]).filter (fun w => !w.isNone) = l.filter (fun w => !w.isNone) := by
        simp [List.filter_append, hv]
      simp only [List.filter_cons, this]
    rw [hfe]

/-- A later null value never overwrites an already-bound value. -/
lemma entryRel_null_ignored (vs : List Value) (old : Value) (mlt : Bool)
    (v : Value) (h : entryRel vs (some old) mlt) (hv : v.isNone = true) :
    entryRel (vs ++ [v]) (some old) mlt := by
  obtain ⟨h1, h2⟩ := h
  have hne := entryRel_ne_nil vs old mlt ⟨h1, h2⟩
  constructor
  · rw [coalesced_append_null vs hne v hv]
    exact h1
  · have : (vs ++ [v]).filter (fun w => !w.isNone) = vs.filter (fun w => !w.isNone) := by
      simp [List.filter_append, hv]
    rw [this]
    exact h2

/-- Overwriting a null binding with the next value preserves the
relation. -/
lemma entryRel_overwrite_null (vs : List Value) (mlt : Bool) (v : Value)
    (h : entryRel vs (some .vNone) mlt) : entryRel (vs ++ [v]) (some v) mlt := by
  obtain ⟨h1, h2⟩ := h
  have hne := entryRel_ne_nil vs .vNone mlt ⟨h1, h2⟩
  have hnn : vs.filter (fun w => !w.isNone) = [] := by
    rcases coalesced_some_inv vs .vNone h1.symm with ⟨hf, _⟩ | ⟨hf, hcon⟩ | ⟨_, hcon⟩
    · exact hf
    · simp [Value.isNone] at hcon
    · exact absurd hcon.symm (by simp)
  obtain ⟨a, l, rfl⟩ := List.exists_cons_of_ne_nil hne
  constructor
  · rw [List.cons_append, coalesced_cons]
    have hfe : (a :: (l ++ [v])).filter (fun w => !w.isNone) =
        (if v.isNone then [] else [v]) := by
      rw [show a :: (l ++ [v]) = (a :: l) ++ [v] from rfl, List.filter_append, hnn]
      cases hv : v.isNone <;> simp [hv]
    rw [hfe]
    cases hv : v.isNone
    · simp
    · have : v = .vNone := by cases v <;> simp_all [Value.isNone]
      subst this
      simp
  · have hfe : ((a :: l) ++ [v]).filter (fun w => !w.isNone) =
        (if v.isNone then [] else [v]) := by
      rw [List.filter_append, hnn]
      cases hv : v.isNone <;> simp [hv]
    rw [hfe]
    rw [hnn] at h2
    simp only [List.length_nil] at h2
    constructor
    · intro hm
      exact absurd (h2.mp hm) (by omega)
    · intro hc
      have : (if v.isNone then ([] : List Value) else [v]).length ≤ 1 := by
        cases v.isNone <;> simp
      exact absurd hc (by omega)

/-- The third and later non-null occurrences are appended to the
two-element list created earlier (`multi_args` branch). -/
lemma entryRel_append_multi (vs : List Value) (old v : Value)
    (h : entryRel vs (some old) true) (hv : v.isNone = false) :
    old = .list (vs.filter (fun w => !w.isNone)) ∧
    entryRel (vs ++ [v])
      (some (.list (vs.filter (fun w => !w.isNone) ++ [v]))) true := by
  obtain ⟨h1, h2⟩ := h
  have hlen : 2 ≤ (vs.filter (fun w => !w.isNone)).length := h2.mp rfl
  have hne := entryRel_ne_nil vs old true ⟨h1, h2⟩
  have hold : old = .list (vs.filter (fun w => !w.isNone)) := by
    rcases coalesced_some_inv vs old h1.symm with ⟨hf, _⟩ | ⟨hf, _⟩ | ⟨_, hr⟩
    · rw [hf] at hlen; simp at hlen
    · rw [hf] at hlen; simp at hlen
    · exact hr
  have hfe : (vs ++ [v]).filter (fun w => !w.isNone) =
      vs.filter (fun w => !w.isNone) ++ [v] := by
    rw [List.filter_append]; simp [hv]
  have hlen' : 2 ≤ ((vs ++ [v]).filter (fun w => !w.isNone)).length := by
    rw [hfe, List.length_append]
    omega
  refine ⟨hold, ?_, ?_⟩
  · rw [coalesced_eq_list_of_two_le (vs ++ [v]) (by simp) hlen', hfe]
  · rw [hfe]
    refine ⟨fun _ => ?_, fun _ => rfl⟩
    rw [List.length_append]
    omega

/-- The second non-null occurrence turns the binding into a two-element
list and marks the key as multi. -/
lemma entryRel_second (vs : List Value) (old v : Value)
    (h : entryRel vs (some old) false) (hold : old.isNone = false)
    (hv : v.isNone = false) :
    entryRel (vs ++ [v]) (some (.list [old, v])) true := by
  obtain ⟨h1, h2⟩ := h
  have hne := entryRel_ne_nil vs old false ⟨h1, h2⟩
  have hnn : vs.filter (fun w => !w.isNone) = [old] := by
    rcases coalesced_some_inv vs old h1.symm with ⟨_, hr⟩ | ⟨hf, _⟩ | ⟨hlen, _⟩
    · rw [hr] at hold; simp [Value.isNone] at hold
    · exact hf
    · exact absurd (h2.mpr hlen) (by simp)
  obtain ⟨a, l, rfl⟩ := List.exists_cons_of_ne_nil hne
  have hfe : (a :: (l ++ [v])).filter (fun w => !w.isNone) = [old, v] := by
    rw [show a :: (l ++ [v]) = (a :: l) ++ [v] from rfl, List.filter_append, hnn]
    simp [hv]
  constructor
  · rw [List.cons_append, coalesced_cons, hfe]
  · rw [show (a :: l) ++ [v] = a :: (l ++ [v]) from rfl, hfe]
    simp

/-- The invariant of the `_normalize` loop: for each normalized key in the
signature, the state is related by `entryRel` to the values seen so far
(`m`); keys outside the signature never enter `args`. -/
def stInv (params : List String) (m : String → List Value) (st : BindSt) : Prop :=
  ∀ k, (k ∈ params → entryRel (m k) (alGet st.args k) (st.multi.contains k)) ∧
       (k ∉ params → alGet st.args k = none)

lemma valuesFor_singleton (k k0 : String) (v : Value) :
    valuesFor k [(k0, v)] = if dispNorm k0 = k then [v] else [] := by
  by_cases hk : dispNorm k0 = k
  · simp [valuesFor, List.filter, hk]
  · have hb : (dispNorm k0 == k) = false := beq_eq_false_iff_ne.mpr hk
    simp [valuesFor, List.filter, hb, hk]

lemma valuesFor_cons (k : String) (kv : String × Value)
    (l : List (String × Value)) :
    valuesFor k (kv :: l) =
      (if dispNorm kv.1 = k then [kv.2] else []) ++ valuesFor k l := by
  by_cases hk : dispNorm kv.1 = k
  · simp [valuesFor, List.filter_cons, hk]
  · have hb : (dispNorm kv.1 == k) = false := beq_eq_false_iff_ne.mpr hk
    simp [valuesFor, List.filter_cons, hb, hk]

lemma contains_cons_ne (a x : String) (l : List String) (h : x ≠ a) :
    (a :: l).contains x = l.contains x := by
  simp [List.contains_cons, h]

/-- One iteration of the `_normalize` loop preserves the invariant and
never raises. -/
lemma normStep_inv (params : List String) (m : String → List Value)
    (st : BindSt) (kv : String × Value) (h : stInv params m st) :
    ∃ st', normStep params st kv = .ok st' ∧
      stInv params (fun k => m k ++ valuesFor k [kv]) st' := by
  obtain ⟨k0, v⟩ := kv
  by_cases hp : dispNorm k0 ∈ params
  case neg =>
    refine ⟨st, by simp [normStep, hp], ?_⟩
    intro k
    by_cases hk : dispNorm k0 = k
    · subst hk
      exact ⟨fun hkp => absurd hkp hp, fun _ => (h (dispNorm k0)).2 hp⟩
    · simp only [valuesFor_singleton, if_neg hk, List.append_nil]
      exact h k
  case pos =>
    have hrel := (h (dispNorm k0)).1 hp
    have hstep : ∀ (w : Value) (mlt : List String),
        (∀ k, k ≠ dispNorm k0 → mlt.contains k = st.multi.contains k) →
        entryRel (m (dispNorm k0) ++ [v]) (some w) (mlt.contains (dispNorm k0)) →
        stInv params (fun k => m k ++ valuesFor k [(k0, v)])
          ⟨alSet st.args (dispNorm k0) w, mlt⟩ := by
      intro w mlt hmlt hw
      intro k
      by_cases hk : dispNorm k0 = k
      · subst hk
        refine ⟨fun _ => ?_, fun hkp => absurd hp hkp⟩
        simp only [valuesFor_singleton, if_pos rfl]
        rw [alGet_alSet_self]
        exact hw
      · have hne : k ≠ dispNorm k0 := fun hh => hk hh.symm
        simp only [valuesFor_singleton, if_neg hk, List.append_nil]
        constructor
        · intro hkp
          rw [alGet_alSet_ne _ _ _ _ hne, hmlt k hne]
          exact ((h k).1 hkp)
        · intro hkp
          rw [alGet_alSet_ne _ _ _ _ hne]
          exact (h k).2 hkp
    rcases halg : alGet st.args (dispNorm k0) with _ | old
    · rw [halg] at hrel
      refine ⟨⟨alSet st.args (dispNorm k0) v, st.multi⟩, ?_, ?_⟩
      · simp [normStep, hp, halg]
      · exact hstep v st.multi (fun _ _ => rfl) (entryRel_first _ _ v hrel)
    · rw [halg] at hrel
      cases hold : old.isNone
      case true =>
        have holdv : old = .vNone := by
          cases old <;> first | rfl | simp [Value.isNone] at hold
        subst holdv
        refine ⟨⟨alSet st.args (dispNorm k0) v, st.multi⟩, ?_, ?_⟩
        · simp [normStep, hp, halg, Value.isNone]
        · exact hstep v st.multi (fun _ _ => rfl)
            (entryRel_overwrite_null _ _ v hrel)
      case false =>
        cases hcm : st.multi.contains (dispNorm k0)
        case true =>
          rw [hcm] at hrel
          have hmem : dispNorm k0 ∈ st.multi := by simpa using hcm
          cases hv : v.isNone
          case false =>
            obtain ⟨holdl, hrel'⟩ := entryRel_append_multi _ old v hrel hv
            have hlnone : (Value.list
                ((m (dispNorm k0)).filter (fun w => !w.isNone))).isNone = false := rfl
            refine ⟨⟨alSet st.args (dispNorm k0)
              (.list ((m (dispNorm k0)).filter (fun w => !w.isNone) ++ [v])),
              st.multi⟩, ?_, ?_⟩
            · simp [normStep, hp, halg, hold, hcm, hv, hmem, holdl, pyAppend,
                hlnone]
            · exact hstep _ st.multi (fun _ _ => rfl) (by rw [hcm]; exact hrel')
          case true =>
            refine ⟨st, by simp [normStep, hp, halg, hold, hcm, hv], ?_⟩
            intro k
            by_cases hk : dispNorm k0 = k
            · subst hk
              refine ⟨fun _ => ?_, fun hkp => absurd hp hkp⟩
              simp only [valuesFor_singleton, if_pos rfl]
              rw [halg, hcm]
              exact entryRel_null_ignored _ old _ v hrel hv
            · simp only [valuesFor_singleton, if_neg hk, List.append_nil]
              exact h k

        case false =>
          rw [hcm] at hrel
          have hmem : dispNorm k0 ∉ st.multi := by simpa using hcm
          cases hv : v.isNone
          case false =>
            refine ⟨⟨alSet st.args (dispNorm k0) (.list [old, v]),
              dispNorm k0 :: st.multi⟩, ?_, ?_⟩
            · simp [normStep, hp, halg, hold, hcm, hv, hmem]
            · refine hstep _ _ (fun k hk => ?_) ?_
              · exact contains_cons_ne _ _ _ hk
              · have : (dispNorm k0 :: st.multi).contains (dispNorm k0) = true := by
                  simp
                rw [this]
                exact entryRel_second _ old v hrel hold hv
          case true =>
            refine ⟨st, by simp [normStep, hp, halg, hold, hcm, hv], ?_⟩
            intro k
            by_cases hk : dispNorm k0 = k
            · subst hk
              refine ⟨fun _ => ?_, fun hkp => absurd hp hkp⟩
              simp only [valuesFor_singleton, if_pos rfl]
              rw [halg, hcm]
              exact entryRel_null_ignored _ old _ v hrel hv
            · simp only [valuesFor_singleton, if_neg hk, List.append_nil]
              exact h k

/-- Folding the whole parsed-argument sequence preserves the invariant and
never raises. -/
lemma foldNorm_inv (params : List String) :
    ∀ (rest : List (String × Value)) (m : String → List Value) (st : BindSt),
    stInv params m st →
    ∃ st', rest.foldlM (normStep params) st = .ok st' ∧
      stInv params (fun k => m k ++ valuesFor k rest) st' := by
  intro rest
  induction rest with
  | nil =>
    intro m st h
    refine ⟨st, rfl, ?_⟩
    simpa [valuesFor] using h
  | cons kv rest ih =>
    intro m st h
    obtain ⟨k0, v⟩ := kv
    obtain ⟨st1, hstep, hinv1⟩ := normStep_inv params m st (k0, v) h
    obtain ⟨st', hfold, hinv'⟩ := ih _ _ hinv1
    refine ⟨st', ?_, ?_⟩
    · rw [List.foldlM_cons, hstep]
      exact hfold
    · intro k
      have harr : m k ++ valuesFor k [(k0, v)] ++ valuesFor k rest =
          m k ++ valuesFor k ((k0, v) :: rest) := by
        rw [valuesFor_cons k (k0, v) rest, valuesFor_singleton]
        simp [List.append_assoc]
      have hh := hinv' k
      simp only [harr] at hh
      exact hh

/-- C6: in the dispatcher binder (`rcli.dispatcher._normalize`), for every
signature-key whose normalized form is bound by the parsed arguments, the
final binding coalesces its values as the spec describes: non-null
occurrences after the first are collected into a list (the first two
non-null occurrences yield a two-element list, later non-null occurrences
are appended), and a later null value never overwrites an already-bound
non-null value; moreover the loop never raises. -/
theorem duplicate_key_binding_coalesces (params : List String)
    (cliArgs : List (String × Value)) (nk : String) (hp : nk ∈ params) :
    ∃ d, dispNormalize params cliArgs = .ok d ∧
      alGet d nk = coalesced (valuesFor nk cliArgs) := by
  have h0 : stInv params (fun _ => []) ⟨[], []⟩ := by
    intro k
    constructor
    · intro _
      exact ⟨rfl, by simp [alGet, coalesced, List.contains]⟩
    · intro _
      rfl
  obtain ⟨st', hfold, hinv⟩ := foldNorm_inv params cliArgs (fun _ => []) ⟨[], []⟩ h0
  refine ⟨st'.args, ?_, ?_⟩
  · simp only [dispNormalize, hfold, Except.map]
  · have hh := (hinv nk).1 hp
    simpa using hh.1

/-- Witness for C6: the key `flag` appears as `--flag`, `<flag>`, `flag`
and `FLAG` with values `"a"`, null, `"b"`, `"c"`: the two first non-null
values coalesce into a two-element list, the third is appended, and the
null is ignored. -/
theorem duplicate_key_binding_coalesces_witness :
    ∃ d, dispNormalize ["flag"]
        [("--flag", .str "a"), ("<flag>", .vNone),
         ("flag", .str "b"), ("FLAG", .str "c")] = .ok d ∧
      alGet d "flag" = some (.list [.str "a", .str "b", .str "c"]) := by
  obtain ⟨d, h1, h2⟩ := duplicate_key_binding_coalesces ["flag"]
    [("--flag", .str "a"), ("<flag>", .vNone),
     ("flag", .str "b"), ("FLAG", .str "c")] "flag" (by simp)
  refine ⟨d, h1, ?_⟩
  rw [h2]
  rfl

/-! ### The call binder (`rcli/call.py`) -/

/-- ASCII identifier characters, the regex class `\w`. -/
def isWordChar (c : Char) : Bool := c.isAlphanum || c = '_'

/-- The `\W` alternative of the `re.sub` in `rcli.call._normalize`:
every non-word character becomes `_`. -/
def replaceNonWord (cs : List Char) : List Char :=
  cs.map (fun c => if isWordChar c then c else '_')

/-- The `^(?=\d)` alternative of the same `re.sub`: a leading digit gets
an underscore inserted in front (which the subsequent `.strip` removes
again). -/
def digitGuard (orig replaced : List Char) : List Char :=
  match orig with
  | c :: _ => if c.isDigit then '_' :: replaced else replaced
  | [] => replaced

/-- Python `str.strip` with the single character `_`. -/
def stripUnd (cs : List Char) : List Char :=
  ((cs.dropWhile (fun c => c = '_')).reverse.dropWhile (fun c => c = '_')).reverse

/-- The Python 3 keywords (`keyword.kwlist`). -/
def pyKeywords : List String :=
  ["False", "None", "True", "and", "as", "assert", "async", "await",
   "break", "class", "continue", "def", "del", "elif", "else", "except",
   "finally", "for", "from", "global", "if",
   "import", "in", "is", "lambda", "nonlocal", "not", "or", "pass",
   "raise", "return", "try", "while", "with", "yield"]

/-- The names of `six.moves.builtins` (`dir(builtins)` on Python 3). -/
def pyBuiltins : List String :=
  ["ArithmeticError", "AssertionError", "AttributeError", "BaseException",
   "BlockingIOError", "BrokenPipeError", "BufferError", "BytesWarning",
   "ChildProcessError", "ConnectionAbortedError", "ConnectionError",
   "ConnectionRefusedError", "ConnectionResetError", "DeprecationWarning",
   "EOFError", "Ellipsis", "EnvironmentError", "Exception", "False",
   "FileExistsError", "FileNotFoundError", "FloatingPointError",
   "FutureWarning", "GeneratorExit", "IOError", "ImportError",
   "ImportWarning", "IndentationError", "IndexError", "InterruptedError",
   "IsADirectoryError", "KeyError", "KeyboardInterrupt", "LookupError",
   "MemoryError", "ModuleNotFoundError", "NameError", "None",
   "NotADirectoryError", "NotImplemented", "NotImplementedError",
   "OSError", "OverflowError", "PendingDeprecationWarning",
   "PermissionError", "ProcessLookupError", "RecursionError",
   "ReferenceError", "ResourceWarning", "RuntimeError", "RuntimeWarning",
   "StopAsyncIteration", "StopIteration", "SyntaxError", "SyntaxWarning",
   "SystemError", "SystemExit", "TabError", "TimeoutError", "True",
   "TypeError", "UnboundLocalError", "UnicodeDecodeError",
   "UnicodeEncodeError", "UnicodeError", "UnicodeTranslateError",
   "UnicodeWarning", "UserWarning", "ValueError", "Warning",
   "ZeroDivisionError", "abs", "all", "any", "ascii", "bin", "bool",
   "bytearray", "bytes", "callable", "chr", "classmethod", "compile",
   "complex", "copyright", "credits", "delattr", "dict", "dir", "divmod",
   "enumerate", "eval", "exec", "exit", "filter", "float", "format",
   "frozenset", "getattr", "globals", "hasattr", "hash", "help", "hex",
   "id", "input", "int", "isinstance", "issubclass", "iter", "len",
   "license", "list", "locals", "map", "max", "memoryview", "min",
   "next", "object", "oct", "open", "ord", "pow", "print", "property",
   "quit", "range", "repr", "reversed", "round", "set", "setattr",
   "slice", "sorted", "staticmethod", "str", "sum", "super", "tuple",
   "type", "vars", "zip",
   "__build_class__", "__debug__", "__doc__", "__import__", "__loader__",
   "__name__", "__package__", "__spec__"]

/-- Embeds the key normalization of `rcli.call._normalize`:
`nk = re.sub(r'\W|^(?=\d)', '_', k).strip('_').lower()`, then
`nk += '_'` when `keyword.iskeyword(nk)` or `nk` is a name of
`six.moves.builtins`. -/
def callNorm (k : String) : String :=
  let nk := String.mk
    ((stripUnd (digitGuard k.toList (replaceNonWord k.toList))).map charLower)
  if pyKeywords.contains nk || pyBuiltins.contains nk then nk ++ "_" else nk

/-- The signature data computed by `rcli.call._getargspec`: `args`
contains the named parameters plus the varargs and varkw names when
present. -/
structure ArgSpec where
  args : List String
  varargs : Option String
  varkw : Option String

/-- Embeds `exceptions.InvalidCliValueError(parameter, value)`: the CLI
key and the raw value it was constructed from. -/
structure CliErr where
  parameter : String
  value : Value

/-- The message `InvalidCliValueError.__init__` builds (no
`valid_values`). -/
def invalidCliValueMsg (parameter : String) (value : Value) : String :=
  "Invalid value \"" ++ pyStr value ++ "\" supplied to " ++ parameter ++ "."

/-- Access to the `defaultdict(lambda: Any, get_type_hints(...))`: a
missing key is inserted with value `Any`. -/
def hintsGetIns (hints : List (String × Ty)) (k : String) :
    Ty × List (String × Ty) :=
  match alGet hints k with
  | some t => (t, hints)
  | none => (.any, alSet hints k .any)

/-- Embeds the `for k, nk, v in _normalize(args)` loop of
`rcli.call.call`, threading the mutated hints, the `varargs` tuple and
`named_args`.  A cast failure (`CastError` is a `TypeError`) raises
`InvalidCliValueError(k, v)`. -/
def callLoop (argspec : ArgSpec) :
    List (String × Ty) × Value × List (String × Value) →
    List (String × Value) →
    Except CliErr (List (String × Ty) × Value × List (String × Value))
  | st, [] => .ok st
  | (hints, varargs, named), (k, v) :: rest =>
    let nk := callNorm k
    let hints1 :=
      if argspec.varargs = some nk then
        alSet hints nk (.tup [(alGet hints nk).getD .any] true)
      else if !argspec.args.contains nk &&
          (match argspec.varkw with
           | some w => (alGet hints w).isSome
           | none => false) then
        alSet hints nk ((argspec.varkw.bind (alGet hints)).getD .any)
      else hints
    let lookup := hintsGetIns hints1 nk
    match cast lookup.1 v with
    | .error _ => .error ⟨k, v⟩
    | .ok value =>
      if argspec.varargs = some nk then
        callLoop argspec (lookup.2, value, named) rest
      else if (argspec.args.contains nk || argspec.varkw.isSome) &&
          (match alGet named nk with
           | none => true
           | some o => o.isNone) then
        callLoop argspec (lookup.2, varargs, alSet named nk value) rest
      else
        callLoop argspec (lookup.2, varargs, named) rest

/-- Embeds `rcli.call.call` up to (but excluding) the final
`func(*varargs, **named_args)`: the varargs tuple and named-argument dict
the handler would be invoked with, or the `InvalidCliValueError` raised
when a cast fails. -/
def pyCallArgs (argspec : ArgSpec) (hints : List (String × Ty))
    (cliArgs : List (String × Value)) :
    Except CliErr (Value × List (String × Value)) :=
  (callLoop argspec (hints, .tuple [], []) cliArgs).map (fun st => (st.2.1, st.2.2))

/-- Embeds the full `rcli.call.call`: the handler `func` is applied to the
computed arguments; a cast failure raises before `func` is invoked. -/
def pyCall {ρ : Type} (argspec : ArgSpec) (hints : List (String × Ty))
    (cliArgs : List (String × Value))
    (func : Value → List (String × Value) → ρ) : Except CliErr ρ :=
  (pyCallArgs argspec hints cliArgs).map (fun p => func p.1 p.2)

/-- The outcome of the protective `try`/`except` in `dispatcher.main`:
an `InvalidCliValueError` is caught and returned (the CLI shell prints its
message), so it never propagates past the dispatcher boundary. -/
inductive MainOutcome
  | returned (msg : String)
  | handlerResult (v : Value)

/-- Embeds the `except exc.InvalidCliValueError as e: return e` clause of
`dispatcher.main` (lines 75-76). -/
def mainBoundary (r : Except CliErr Value) : MainOutcome :=
  match r with
  | .ok v => .handlerResult v
  | .error e => .returned (invalidCliValueMsg e.parameter e.value)

/-- Keys whose normalized form matches no declared parameter never enter
`named_args` when the target has no variadic-keyword parameter. -/
lemma callLoop_unknown_key (argspec : ArgSpec) (hvk : argspec.varkw = none)
    (k : String) (hk : argspec.args.contains k = false) :
    ∀ (cliArgs : List (String × Value)) (hints : List (String × Ty))
      (varargs : Value) (named : List (String × Value)),
      alGet named k = none →
      ∀ st', callLoop argspec (hints, varargs, named) cliArgs = .ok st' →
        alGet st'.2.2 k = none := by
  intro cliArgs
  induction cliArgs with
  | nil =>
    intro hints varargs named hnamed st' hok
    cases hok
    exact hnamed
  | cons kv rest ih =>
    intro hints varargs named hnamed st' hok
    obtain ⟨k0, v⟩ := kv
    simp only [callLoop] at hok
    split at hok
    · exact absurd hok (by simp)
    · split at hok
      · exact ih _ _ _ hnamed st' hok
      · split at hok
        · rename_i hcond
          have hnk : argspec.args.contains (callNorm k0) = true := by
            rcases (Bool.and_eq_true _ _).mp hcond with ⟨hor, _⟩
            rcases (Bool.or_eq_true _ _).mp hor with hl | hr
            · exact hl
            · rw [hvk] at hr
              exact absurd hr (by simp)
          have hkne : k ≠ callNorm k0 := by
            intro hh
            rw [hh, hnk] at hk
            exact Bool.noConfusion hk
          refine ih _ _ _ ?_ st' hok
          rw [alGet_alSet_ne _ _ _ _ hkne]
          exact hnamed
        · exact ih _ _ _ hnamed st' hok

/-- C7: for every target without a variadic-keyword parameter, every
parsed-argument key whose normalized form matches no declared parameter is
silently dropped by the binder: the named-argument dict the handler
receives binds only declared parameter names.  The witness instantiates
parameters `[name]` with parsedArguments `{name: "x", extra: "y"}`,
yielding exactly `{name: "x"}`. -/
theorem binder_drops_unknown_keys (argspec : ArgSpec)
    (hints : List (String × Ty)) (cliArgs : List (String × Value))
    (hvk : argspec.varkw = none) (k : String)
    (hk : argspec.args.contains k = false)
    (res : Value × List (String × Value))
    (hres : pyCallArgs argspec hints cliArgs = .ok res) :
    alGet res.2 k = none := by
  unfold pyCallArgs at hres
  rcases hloop : callLoop argspec (hints, .tuple [], []) cliArgs with e | st'
  · rw [hloop] at hres
    simp [Except.map] at hres
  · rw [hloop] at hres
    simp only [Except.map, Except.ok.injEq] at hres
    have hun := callLoop_unknown_key argspec hvk k hk cliArgs hints
      (.tuple []) [] rfl st' hloop
    rw [← hres]
    exact hun

/-- Witness for C7: binding `{name: "x", extra: "y"}` against the single
parameter `name` yields exactly `{name: "x"}` and drops `extra`. -/
theorem binder_drops_unknown_keys_witness :
    pyCallArgs ⟨["name"], none, none⟩ []
        [("name", .str "x"), ("extra", .str "y")] =
      .ok (.tuple [], [("name", .str "x")]) ∧
    alGet ((Value.tuple [], [("name", Value.str "x")]) :
        Value × List (String × Value)).2 "extra" = none := by
  have h1 : callNorm "name" = "name" := rfl
  have h2 : callNorm "extra" = "extra" := rfl
  have hrun : pyCallArgs ⟨["name"], none, none⟩ []
      [("name", .str "x"), ("extra", .str "y")] =
        .ok (.tuple [], [("name", .str "x")]) := by
    simp [pyCallArgs, callLoop, h1, h2, hintsGetIns, alGet, alSet, cast_any,
      Except.map]
  exact ⟨hrun, binder_drops_unknown_keys ⟨["name"], none, none⟩ []
    [("name", .str "x"), ("extra", .str "y")] rfl "extra" rfl
    (.tuple [], [("name", .str "x")]) hrun⟩

/-- C8: the invalid-cast scenario.  With handler parameter `value` typed
integer and matcher output `{<value>: "abc"}`, the binder raises
`InvalidCliValueError("<value>", "abc")` and the handler is never invoked
(the same error results for every handler `func`); `dispatcher.main`
catches the error at its boundary and returns a user-facing message that
names both the offending CLI token `<value>` and the attempted raw value
`abc`. -/
theorem cast_failure_reported_handler_not_invoked :
    (∀ (ρ : Type) (func : Value → List (String × Value) → ρ),
      pyCall ⟨["value"], none, none⟩ [("value", .intTy)]
          [("<value>", .str "abc")] func = .error ⟨"<value>", .str "abc"⟩) ∧
    mainBoundary (pyCall ⟨["value"], none, none⟩ [("value", .intTy)]
        [("<value>", .str "abc")] (fun _ _ => Value.vNone)) =
      .returned (invalidCliValueMsg "<value>" (.str "abc")) ∧
    "<value>".toList <:+: (invalidCliValueMsg "<value>" (.str "abc")).toList ∧
    "abc".toList <:+: (invalidCliValueMsg "<value>" (.str "abc")).toList := by
  have hn : callNorm "<value>" = "value" := rfl
  have hc : cast .intTy (.str "abc") = .error (.castErr .intTy (.str "abc")) := by
    rw [cast_intTy]
    rfl
  have hmain : ∀ (ρ : Type) (func : Value → List (String × Value) → ρ),
      pyCall ⟨["value"], none, none⟩ [("value", .intTy)]
          [("<value>", .str "abc")] func = .error ⟨"<value>", .str "abc"⟩ := by
    intro ρ func
    simp [pyCall, pyCallArgs, callLoop, hn, hintsGetIns, alGet, hc, Except.map]
  refine ⟨hmain, ?_, by decide, by decide⟩
  rw [hmain Value (fun _ _ => Value.vNone)]
  rfl

/-! ### The claimed key normalization (C9) -/

/-- Strips one leading `--`, or else one leading `-` (the claim's first
step). -/
def dashStrip (cs : List Char) : List Char :=
  match cs with
  | '-' :: '-' :: rest => rest
  | '-' :: rest => rest
  | _ => cs

/-- Strips surrounding `<` and `>` when both are present (the claim's
second step). -/
def angleStrip (cs : List Char) : List Char :=
  match cs with
  | '<' :: rest => if rest.getLast? = some '>' then rest.dropLast else '<' :: rest
  | _ => cs

/-- The normalization exactly as the claim words it: strip leading `--` or
`-`, strip surrounding `<>`, lower-case, replace every non-identifier
character with `_`, and append a trailing underscore when the result
collides with a reserved word of the target language. -/
def claimedNorm (k : String) : String :=
  let core := replaceNonWord ((angleStrip (dashStrip k.toList)).map charLower)
  let nk := String.mk core
  if pyKeywords.contains nk then nk ++ "_" else nk

/-- The normalization as amended: as the claim, but additionally stripping
leading and trailing underscores from the replaced result, and appending
the trailing underscore also when the result shadows a builtin name. -/
def amendedNorm (k : String) : String :=
  let core := stripUnd (replaceNonWord ((angleStrip (dashStrip k.toList)).map charLower))
  let nk := String.mk core
  if pyKeywords.contains nk || pyBuiltins.contains nk then nk ++ "_" else nk

/-- C9 counterexample: `rcli.call._normalize` also appends `_` when the
result shadows a builtin name, so `--list` normalizes to `list_`, while
the claim's steps produce `list` (`list` is not a reserved word). -/
theorem normalization_claim_counterexample :
    callNorm "--list" = "list_" ∧ claimedNorm "--list" = "list" ∧
    callNorm "--list" ≠ claimedNorm "--list" := by
  refine ⟨rfl, rfl, ?_⟩
  intro h
  rw [show callNorm "--list" = "list_" from rfl,
    show claimedNorm "--list" = "list" from rfl] at h
  exact absurd h (by decide)

lemma charLower_und_decide (c : Char) :
    (decide (charLower c = '_')) = decide (c = '_') := by
  unfold charLower
  split <;> rfl

lemma isWordChar_charLower (c : Char) :
    isWordChar (charLower c) = isWordChar c := by
  unfold charLower
  split <;> rfl

lemma charLower_replace_comm (c : Char) :
    charLower (if isWordChar c then c else '_') =
      (if isWordChar (charLower c) then charLower c else '_') := by
  rw [isWordChar_charLower]
  by_cases h : isWordChar c
  · simp [h]
  · simp [h]
    rfl

lemma map_charLower_replaceNonWord (cs : List Char) :
    (replaceNonWord cs).map charLower = replaceNonWord (cs.map charLower) := by
  induction cs with
  | nil => rfl
  | cons c rest ih =>
    simp only [replaceNonWord, List.map_cons] at ih ⊢
    rw [charLower_replace_comm c]
    exact congrArg _ ih

lemma map_charLower_dropWhile (l : List Char) :
    (l.dropWhile (fun c => c = '_')).map charLower =
      (l.map charLower).dropWhile (fun c => c = '_') := by
  rw [List.dropWhile_map]
  have hp : ((fun c => decide (c = '_')) ∘ charLower) =
      (fun c : Char => decide (c = '_')) := by
    funext c
    simp only [Function.comp_apply]
    exact charLower_und_decide c
  rw [hp]

lemma map_charLower_stripUnd (l : List Char) :
    (stripUnd l).map charLower = stripUnd (l.map charLower) := by
  unfold stripUnd
  rw [List.map_reverse, map_charLower_dropWhile, List.map_reverse,
    map_charLower_dropWhile]

lemma stripUnd_cons_und (x : List Char) : stripUnd ('_' :: x) = stripUnd x := by
  simp [stripUnd, List.dropWhile_cons]

lemma stripUnd_append_und (y : List Char) : stripUnd (y ++ ['_']) = stripUnd y := by
  unfold stripUnd
  rcases hdw : y.dropWhile (fun c => c = '_') with _ | ⟨a, rest⟩
  · rw [List.dropWhile_append, hdw]
    simp
  · rw [List.dropWhile_append, hdw]
    simp only [List.isEmpty_cons, Bool.false_eq_true, if_false]
    rw [List.reverse_append]
    simp [List.dropWhile_cons]

lemma stripUnd_digitGuard (cs x : List Char) :
    stripUnd (digitGuard cs x) = stripUnd x := by
  unfold digitGuard
  cases cs with
  | nil => rfl
  | cons c rest =>
    cases hd : c.isDigit
    · simp [hd]
    · simp [hd, stripUnd_cons_und]

lemma norm_cons_nonword (c : Char) (hc : isWordChar (charLower c) = false)
    (xs : List Char) :
    stripUnd (replaceNonWord ((c :: xs).map charLower)) =
      stripUnd (replaceNonWord (xs.map charLower)) := by
  simp only [List.map_cons, replaceNonWord, hc, if_false]
  exact stripUnd_cons_und _

lemma norm_append_nonword (c : Char) (hc : isWordChar (charLower c) = false)
    (xs : List Char) :
    stripUnd (replaceNonWord ((xs ++ [c]).map charLower)) =
      stripUnd (replaceNonWord (xs.map charLower)) := by
  simp only [List.map_append, List.map_cons, List.map_nil, replaceNonWord,
    hc, if_false]
  exact stripUnd_append_und _

lemma norm_dashStrip (cs : List Char) :
    stripUnd (replaceNonWord ((dashStrip cs).map charLower)) =
      stripUnd (replaceNonWord (cs.map charLower)) := by
  unfold dashStrip
  split
  · exact ((norm_cons_nonword '-' rfl _).trans (norm_cons_nonword '-' rfl _)).symm
  · exact (norm_cons_nonword '-' rfl _).symm
  · rfl

lemma norm_angleStrip (cs : List Char) :
    stripUnd (replaceNonWord ((angleStrip cs).map charLower)) =
      stripUnd (replaceNonWord (cs.map charLower)) := by
  unfold angleStrip
  split
  case h_2 => rfl
  case h_1 rest =>
    by_cases hlast : rest.getLast? = some '>'
    · simp only [hlast, if_true]
      have hne : rest ≠ [] := by
        intro hh
        rw [hh] at hlast
        exact Option.noConfusion hlast
      have hsplit : rest.dropLast ++ ['>'] = rest := by
        have hdg := List.dropLast_append_getLast hne
        rw [List.getLast?_eq_getLast rest hne] at hlast
        injection hlast with h2
        rw [h2] at hdg
        exact hdg
      calc stripUnd (replaceNonWord (rest.dropLast.map charLower))
          = stripUnd (replaceNonWord ((rest.dropLast ++ ['>']).map charLower)) :=
            (norm_append_nonword '>' rfl _).symm
        _ = stripUnd (replaceNonWord (rest.map charLower)) := by rw [hsplit]
        _ = stripUnd (replaceNonWord (('<' :: rest).map charLower)) :=
            (norm_cons_nonword '<' rfl _).symm
    · simp only [hlast, if_false]

/-- C9 as amended: for every raw CLI key, the binder normalization of
`rcli.call._normalize` equals the claimed pipeline extended with
underscore stripping and the builtin check: strip leading `--`/`-`, strip
surrounding `<>`, lower-case, replace every non-identifier character with
`_`, strip leading and trailing underscores, and append `_` when the
result is a keyword or shadows a builtin; it is a pure function of the
key alone. -/
theorem normalization_matches_amended (k : String) :
    callNorm k = amendedNorm k := by
  have hcore : (stripUnd (digitGuard k.toList (replaceNonWord k.toList))).map charLower
      = stripUnd (replaceNonWord ((angleStrip (dashStrip k.toList)).map charLower)) := by
    rw [stripUnd_digitGuard, map_charLower_stripUnd, map_charLower_replaceNonWord,
      norm_angleStrip, norm_dashStrip]
  simp only [callNorm, amendedNorm]
  rw [hcore]

/-- Witness for C9 (amended): the key `--list` normalizes to `list_` under
both the source normalization and the amended description. -/
theorem normalization_matches_amended_witness :
    callNorm "--list" = amendedNorm "--list" ∧ amendedNorm "--list" = "list_" :=
  ⟨normalization_matches_amended "--list", rfl⟩

/-! ### The usage-text processor (`rcli/usage.py`)

Usage text is modelled as `List Char`.  All functions below are
executable (structural or fuel-bounded recursion), so concrete documents
evaluate inside the kernel. -/

/-- Usage text. -/
abbrev Str := List Char

/-- A string literal as modelled text. -/
def S (s : String) : Str := s.toList

/-- Python `str.lstrip()`. -/
def lstripWs (s : Str) : Str := s.dropWhile pyIsSpace

/-- Python `str.rstrip()`. -/
def rstripWs (s : Str) : Str := (s.reverse.dropWhile pyIsSpace).reverse

/-- Python `str.strip()`. -/
def stripWs (s : Str) : Str := rstripWs (lstripWs s)

/-- Python truthiness of an optional string (a section result that may be
`None`). -/
def truthyOpt : Option Str → Bool
  | none => false
  | some s => !s.isEmpty

/-- Python `doc.replace('\r', '')` in `format_usage`. -/
def removeCR (s : Str) : Str := s.filter (fun c => !(c == '\r'))

/-- Python `str.split('\n')`. -/
def splitNL : Str → List Str
  | [] => [[]]
  | '\n' :: rest => [] :: splitNL rest
  | c :: rest =>
    match splitNL rest with
    | [] => [[c]]
    | p :: ps => (c :: p) :: ps

/-- Python `str.split('\n\n')` (the section separator of
`format_usage`). -/
def splitNN : Str → List Str
  | [] => [[]]
  | '\n' :: '\n' :: rest => [] :: splitNN rest
  | c :: rest =>
    match splitNN rest with
    | [] => [[c]]
    | p :: ps => (c :: p) :: ps

/-- Python `str.join`. -/
def joinWith (sep : Str) : List Str → Str
  | [] => []
  | [s] => s
  | s :: rest => s ++ sep ++ joinWith sep rest

/-- Python `str.splitlines()` for `\n`-separated text (the only line
separator occurring in the modelled documents). -/
def splitLines (s : Str) : List Str :=
  if s.isEmpty then []
  else
    let ps := splitNL s
    if ps.getLast? = some [] then ps.dropLast else ps

/-- Python `str.index(c)` as an option. -/
def charIndex (c : Char) : Str → Option Nat
  | [] => none
  | x :: rest => if x = c then some 0 else (charIndex c rest).map (fun n => n + 1)

/-- Python `str.expandtabs()` (tab size 8), used by `textwrap` and
`inspect.cleandoc`. -/
def expandTabsGo : Nat → Str → Str
  | _, [] => []
  | col, '\t' :: rest =>
    let n := 8 - col % 8
    List.replicate n ' ' ++ expandTabsGo (col + n) rest
  | _, '\n' :: rest => '\n' :: expandTabsGo 0 rest
  | col, c :: rest => c :: expandTabsGo (col + 1) rest

/-- Python `str.expandtabs()`. -/
def expandTabs (s : Str) : Str := expandTabsGo 0 s

/-- The characters `[ \t]` of the indentation regexes in
`textwrap.dedent`. -/
def isIndentChar (c : Char) : Bool := c = ' ' || c = '\t'

/-- Blanks out lines consisting solely of `[ \t]+`
(`textwrap._whitespace_only_re.sub('', text)`). -/
def blankToEmpty (l : Str) : Str :=
  if !l.isEmpty && l.all isIndentChar then [] else l

/-- The character-wise common prefix used for the dedent margin. -/
def commonPre : Str → Str → Str
  | a :: as2, b :: bs => if a = b then a :: commonPre as2 bs else []
  | _, _ => []

/-- Removes the margin from one line when the line starts with it
(`re.sub(r'(?m)^' + margin, '', text)`). -/
def dropMargin (margin l : Str) : Str :=
  if margin.isPrefixOf l then l.drop margin.length else l

/-- Embeds `textwrap.dedent`: blank out whitespace-only lines, compute the
common leading-whitespace margin of the content lines, and remove it. -/
def dedent (s : Str) : Str :=
  let lines := (splitNL s).map blankToEmpty
  let indents := (lines.filter (fun l => !l.isEmpty)).map
    (fun l => l.takeWhile isIndentChar)
  let margin : Str :=
    match indents with
    | [] => []
    | i0 :: ris => ris.foldl commonPre i0
  if margin.isEmpty then joinWith ['\n'] lines
  else joinWith ['\n'] (lines.map (dropMargin margin))

/-- The smallest element of a list of naturals. -/
def listMin : List Nat → Option Nat
  | [] => none
  | n :: rest => some ((listMin rest).elim n (min n))

/-- Drops trailing falsy (empty) lines, then leading ones
(the two `while` loops of `inspect.cleandoc`). -/
def dropEmptyEnds (ls : List Str) : List Str :=
  ((ls.reverse.dropWhile List.isEmpty).reverse).dropWhile List.isEmpty

/-- Embeds `inspect.cleandoc`: expand tabs, strip the common margin of the
lines after the first, fully strip the first line, and drop leading and
trailing blank lines. -/
def cleandoc (doc : Str) : Str :=
  let lines := splitNL (expandTabs doc)
  let margins := (lines.drop 1).filterMap (fun l =>
    let c := lstripWs l
    if c.isEmpty then none else some (l.length - c.length))
  let body :=
    match listMin margins with
    | none => lines.drop 1
    | some mg => (lines.drop 1).map (fun l => l.drop mg)
  let first :=
    match lines with
    | [] => []
    | l0 :: _ => [lstripWs l0]
  joinWith ['\n'] (dropEmptyEnds (first ++ body))

/-- Whether a chunk is pure whitespace (`chunk.strip() == ''`). -/
def isSpaceChunk (c : Str) : Bool := c.all pyIsSpace

/-- The whitespace characters `textwrap` replaces by spaces when
`replace_whitespace` is set. -/
def pyTranslateWs (c : Char) : Char :=
  if c = '\t' || c = '\n' || c = '\x0b' || c = '\x0c' || c = '\r' then ' ' else c

/-- Splits text into maximal runs of whitespace / non-whitespace. -/
def splitRunsAux : Nat → Str → List Str
  | 0, _ => []
  | _ + 1, [] => []
  | fuel + 1, c :: rest =>
    let cls := pyIsSpace c
    ((c :: rest).takeWhile (fun x => pyIsSpace x == cls)) ::
      splitRunsAux fuel ((c :: rest).dropWhile (fun x => pyIsSpace x == cls))

/-- Splits text into maximal runs of whitespace / non-whitespace (the
fuel bounds the recursion by the text length). -/
def splitRuns (s : Str) : List Str := splitRunsAux s.length s

/-- Splits a word chunk after each hyphen that sits between alphanumeric
characters, approximating the `break_on_hyphens` part of
`textwrap.TextWrapper.wordsep_re` (the em-dash refinements of the full
regex are not modelled; the repository's usage text does not use them). -/
def hyphenSplitGo (acc : Str) : Str → List Str
  | [] => if acc.isEmpty then [] else [acc.reverse]
  | '-' :: rest =>
    match rest with
    | d :: _ =>
      if (match acc with
          | p :: _ => p.isAlphanum
          | [] => false) && d.isAlphanum then
        ('-' :: acc).reverse :: hyphenSplitGo [] rest
      else hyphenSplitGo ('-' :: acc) rest
    | [] => [('-' :: acc).reverse]
  | c :: rest => hyphenSplitGo (c :: acc) rest

/-- Embeds `textwrap.TextWrapper._split`: whitespace runs and word chunks,
word chunks breakable after internal hyphens. -/
def mkChunks (s : Str) : List Str :=
  (splitRuns s).foldr
    (fun run acc =>
      (match run with
       | c :: _ => if pyIsSpace c then [run] else hyphenSplitGo [] run
       | [] => []) ++ acc) []

/-- Python `chunk.rfind('-', 0, bound)` as an option. -/
def rfindHyphen (chunk : Str) (bound : Nat) : Option Nat :=
  ((List.range (min bound chunk.length)).filter
    (fun i => chunk.getD i ' ' == '-')).getLast?

/-- Embeds `textwrap.TextWrapper._handle_long_word` with
`break_long_words` and `break_on_hyphens` set: returns the chopped piece
and the remainder pushed back onto the chunks. -/
def handleLongWord (chunk : Str) (curLen width : Nat) : Str × Str :=
  let spaceLeft := if width < 1 then 1 else width - curLen
  let stop :=
    if chunk.length > spaceLeft then
      match rfindHyphen chunk spaceLeft with
      | some h =>
        if 0 < h && (chunk.take h).any (fun c => !(c == '-')) then h + 1
        else spaceLeft
      | none => spaceLeft
    else spaceLeft
  (chunk.take stop, chunk.drop stop)

/-- Greedily takes chunks while the line stays within `width`
(the inner `while` of `_wrap_chunks`); returns the taken chunks, the
remaining chunks and the current line length. -/
def takeFitting (width : Nat) : Nat → List Str → List Str →
    List Str × List Str × Nat
  | curLen, taken, [] => (taken.reverse, [], curLen)
  | curLen, taken, c :: rest =>
    if curLen + c.length ≤ width then
      takeFitting width (curLen + c.length) (c :: taken) rest
    else (taken.reverse, c :: rest, curLen)

/-- Embeds the outer loop of `textwrap.TextWrapper._wrap_chunks` with the
default options (`drop_whitespace`, empty indents, no `max_lines`).  The
fuel bounds the iteration count; each iteration consumes at least one
chunk or one character. -/
def wrapChunksGo (width : Nat) : Nat → List Str → List Str → List Str
  | 0, _, acc => acc.reverse
  | _ + 1, [], acc => acc.reverse
  | fuel + 1, chunk0 :: restChunks, acc =>
    let chunks1 :=
      if !acc.isEmpty && isSpaceChunk chunk0 then restChunks
      else chunk0 :: restChunks
    let fit := takeFitting width 0 [] chunks1
    let cur := fit.1
    let rest1 := fit.2.1
    let curLen := fit.2.2
    let step :=
      match rest1 with
      | c :: rest2 =>
        if c.length > width then
          let hw := handleLongWord c curLen width
          (cur ++ [hw.1], hw.2 :: rest2)
        else (cur, rest1)
      | [] => (cur, [])
    let cur2 :=
      match step.1.getLast? with
      | some lc => if isSpaceChunk lc then step.1.dropLast else step.1
      | none => step.1
    let acc2 := if cur2.isEmpty then acc else cur2.foldr (fun a b => a ++ b) [] :: acc
    wrapChunksGo width fuel step.2 acc2

/-- Embeds `textwrap.wrap(text, width)`; `replaceWs` distinguishes the
default call from the `replace_whitespace=False` call of the prose path.
A non-positive width models the `ValueError` textwrap raises. -/
def textwrapWrap (replaceWs : Bool) (width : Int) (text : Str) :
    Except Unit (List Str) :=
  if width ≤ 0 then .error ()
  else
    let t1 := expandTabs text
    let t2 := if replaceWs then t1.map pyTranslateWs else t1
    let chunks := mkChunks t2
    .ok (wrapChunksGo width.toNat (t2.length + chunks.length + 1) chunks [])

/-- Whether a line is a continuation line of a section
(the `[ \t].*?(?:\n|$)` alternative of the `_get_section` regex). -/
def startsIndent : Str → Bool
  | c :: _ => c = ' ' || c = '\t'
  | [] => false

/-- Whether `pat` occurs contiguously inside `s` (Python `pat in s`). -/
def subFind (pat : Str) : Str → Bool
  | [] => pat.isEmpty
  | c :: rest => pat.isPrefixOf (c :: rest) || subFind pat rest

/-- Embeds `pattern.findall(source)` of `_get_section`: each match is a
header line containing the section name (case-insensitively) followed by
the run of indented continuation lines; scanning resumes after each
match.  The fuel bounds the recursion by the number of lines. -/
def findSectionsAux (name : Str) : Nat → List Str → List (List Str)
  | 0, _ => []
  | _ + 1, [] => []
  | fuel + 1, l :: rest =>
    if subFind name (l.map charLower) then
      (l :: rest.takeWhile startsIndent) ::
        findSectionsAux name fuel (rest.dropWhile startsIndent)
    else findSectionsAux name fuel rest

/-- All matches of the `_get_section` regex, as lists of lines. -/
def findSections (name source : Str) : List (List Str) :=
  let ls := splitLines source
  findSectionsAux name ls.length ls

/-- Embeds `_merge_section`: keep the header of `original` (up to and
including the first `:`, else up to the first newline), then join the
bodies with a two-space hanging indent.  A header with neither `:` nor a
newline raises an uncaught `ValueError`. -/
def mergeSectionPy (original toMerge : Option Str) : Except Unit Str :=
  if !truthyOpt original then
    .ok (if truthyOpt toMerge then toMerge.getD [] else [])
  else if !truthyOpt toMerge then .ok (original.getD [])
  else
    let oa := original.getD []
    let ob := toMerge.getD []
    match
      (match charIndex ':' oa with
       | some i => some (i + 1)
       | none => charIndex '\n' oa) with
    | none => .error ()
    | some index =>
      let name := stripWs (oa.take index)
      let body := rstripWs
        (lstripWs (oa.drop (index + 1)) ++ S "\n  " ++
          lstripWs (ob.drop (index + 1)))
      .ok (name ++ S "\n  " ++ body)

/-- The accumulation loop of `_get_section`: successive matches are
merged into one section. -/
def getSectionGo : List (List Str) → Option Str → Except Unit (Option Str)
  | [], acc => .ok acc
  | sec :: rest, acc =>
    match mergeSectionPy acc (some (stripWs (joinWith ['\n'] sec))) with
    | .error e => .error e
    | .ok merged => getSectionGo rest (some merged)

/-- Embeds `_get_section(name, source)`; `none` models the `None` result
when no section matches. -/
def getSectionPy (name source : Str) : Except Unit (Option Str) :=
  getSectionGo (findSections name source) none

/-- Length of the leading whitespace run of a line. -/
def wsRunLen (l : Str) : Nat := (l.takeWhile pyIsSpace).length

/-- Whether the text contains two consecutive whitespace characters
followed by at least one further character. -/
def hasDefSep : Str → Bool
  | [] => false
  | c1 :: rest =>
    (match rest with
     | c2 :: _ :: _ => pyIsSpace c1 && pyIsSpace c2
     | _ => false) || hasDefSep rest

/-- Closed form of `re.match(r'\s\s+((?!\s\s).+)\s\s+.+', s)` on a line
without newlines: the leading whitespace run has length `n ≥ 2`, and
after position `n` there is a separator of two consecutive whitespace
characters with at least one character following it (the group then
covers the text between; the negative lookahead only constrains the
group's start, which backtracking always places at `n-1` or `n`, so the
separator always sits strictly past position `n`). -/
def matchDefLine (l : Str) : Bool :=
  decide (2 ≤ wsRunLen l) && hasDefSep (l.drop (wsRunLen l + 1))

/-- Embeds `_is_definition_section`: dedent, drop everything up to and
including the first newline (`IndexError` → `False` when there is none),
and require every remaining line to match the definition-line regex. -/
def isDefinitionSection (source : Str) : Bool :=
  let d := dedent source
  match charIndex '\n' d with
  | none => false
  | some j => (splitLines (d.drop (j + 1))).all matchDefLine

/-- Embeds `re.split(r'\s\s+', s)`: splits on maximal runs of at least
two whitespace characters.  The fuel bounds the recursion by the text
length. -/
def splitWs2Go : Nat → Str → Str → List Str
  | 0, accPart, _ => [accPart.reverse]
  | _ + 1, accPart, [] => [accPart.reverse]
  | fuel + 1, accPart, c :: rest =>
    if pyIsSpace c then
      match rest with
      | d :: _ =>
        if pyIsSpace d then
          accPart.reverse :: splitWs2Go fuel [] ((c :: rest).dropWhile pyIsSpace)
        else splitWs2Go fuel (c :: accPart) rest
      | [] => splitWs2Go fuel (c :: accPart) []
    else splitWs2Go fuel (c :: accPart) rest

/-- Embeds `re.split(r'\s\s+', s)`. -/
def splitWs2 (s : Str) : List Str := splitWs2Go (s.length + 1) [] s

/-- Lookup in an insertion-ordered dictionary over modelled text. -/
def adGet (d : List (Str × Str)) (k : Str) : Option Str :=
  match d with
  | [] => none
  | (k2, v) :: rest => if k2 = k then some v else adGet rest k

/-- `d[k] = v` on an insertion-ordered dictionary: updates in place,
appends if absent. -/
def adSet (d : List (Str × Str)) (k : Str) (v : Str) : List (Str × Str) :=
  match d with
  | [] => [(k, v)]
  | (k2, v2) :: rest =>
    if k2 = k then (k2, v) :: rest else (k2, v2) :: adSet rest k v

/-- The loop of `_get_definitions`: strip each line, skip empty lines,
split the rest on double-whitespace into exactly an argument and a
description (`ValueError` otherwise), tracking the longest argument. -/
def getDefsGo : List Str → List (Str × Str) × Nat →
    Except Unit (List (Str × Str) × Nat)
  | [], st => .ok st
  | line :: rest, (descs, maxLen) =>
    let stripped := stripWs line
    if stripped.isEmpty then getDefsGo rest (descs, maxLen)
    else
      match splitWs2 stripped with
      | [arg, desc] => getDefsGo rest (adSet descs arg desc, max maxLen arg.length)
      | _ => .error ()

/-- Embeds `_get_definitions`. -/
def getDefinitions (source : Str) : Except Unit (List (Str × Str) × Nat) :=
  getDefsGo (splitLines source) ([], 0)

/-- Python `'{arg:{size}}'`: left-justified padding to the given width. -/
def padRight (s : Str) (n : Nat) : Str := s ++ List.replicate (n - s.length) ' '

/-- The definition-line loop of `_wrap_definition_section`. -/
def defLinesGo (w maxLen : Nat) (sep : Str) :
    List (Str × Str) → Except Unit (List Str)
  | [] => .ok []
  | (arg, desc) :: rest =>
    match textwrapWrap true ((w : Int) - maxLen - 4) desc with
    | .error e => .error e
    | .ok pieces =>
      match defLinesGo w maxLen sep rest with
      | .error e => .error e
      | .ok ls =>
        .ok ((S "  " ++ padRight arg maxLen ++ S "  " ++ joinWith sep pieces) :: ls)

/-- Embeds `_wrap_definition_section`. -/
def wrapDefinitionSection (source : Str) (w : Nat) : Except Unit Str :=
  match charIndex '\n' source with
  | none => .error ()
  | some i =>
    match getDefinitions (source.drop (i + 1)) with
    | .error e => .error e
    | .ok (descs, maxLen) =>
      match defLinesGo w maxLen ('\n' :: List.replicate (maxLen + 4) ' ') descs with
      | .error e => .error e
      | .ok ls => .ok (joinWith ['\n'] (stripWs (source.take (i + 1)) :: ls))

/-- `line[:1].isalpha() and line[:1].islower()`. -/
def isLowerAlpha (c : Char) : Bool := c.isAlpha && c.isLower

/-- The line-joining loop of `_parse_section`: a line starting with a
lowercase letter (or the first line) opens a new command; any other line
is appended, stripped, to the previous command. -/
def parseSectionGo : List Str → List Str → List Str
  | [], acc => acc.reverse
  | line :: rest, acc =>
    let isCmd :=
      match line with
      | c :: _ => isLowerAlpha c
      | [] => false
    match acc with
    | [] => parseSectionGo rest [line]
    | last :: prev =>
      if isCmd then parseSectionGo rest (line :: last :: prev)
      else parseSectionGo rest ((stripWs last ++ [' '] ++ stripWs line) :: prev)

/-- Python `str.split()`: the non-whitespace runs. -/
def pySplitWs (s : Str) : List Str :=
  (splitRuns s).filter (fun r => !(isSpaceChunk r))

/-- `arg[0].isalpha() and not arg[0].isupper()` for a command token. -/
def isCmdToken : Str → Bool
  | c :: _ => c.isAlpha && !c.isUpper
  | [] => false

/-- The token loop of `parse_commands`: leading command tokens are
collected; the yielded argument list starts at the loop variable's final
value, so when every token is a command the arguments are the last token
again. -/
def parseCmdTokens (command : Str) : List Str × List Str :=
  let args := pySplitWs command
  match args.findIdx? (fun a => !(isCmdToken a)) with
  | some j => (args.take j, args.drop j)
  | none => (args, args.drop (args.length - 1))

/-- Counts non-overlapping occurrences of `pat` left to right; the fuel
bounds the recursion by the text length. -/
def countOccGo (pat : Str) : Nat → Str → Nat
  | 0, _ => 0
  | _ + 1, [] => 0
  | fuel + 1, c :: rest =>
    if pat.isPrefixOf (c :: rest) then
      1 + countOccGo pat fuel ((c :: rest).drop pat.length)
    else countOccGo pat fuel rest

/-- Models the `docopt.docopt(docstring, argv=())` probe of
`parse_commands`.  docopt is an external dependency (an external
collaborator of the package); the probe's only lasting effect is the
early empty return on `DocoptLanguageError`, which docopt raises when
the document does not contain exactly one case-insensitive occurrence of
`"usage:"`.  Finer grammar diagnostics of the external matcher are not
modelled; no theorem below evaluates this branch. -/
def docoptLanguageOk (doc : Str) : Bool :=
  countOccGo (S "usage:") doc.length (doc.map charLower) == 1

/-- Embeds `parse_commands` (including `_parse_section` with its
`[7:]` slice that assumes a 7-character `"Usage:\n"` header). -/
def parseCommandsPy (doc : Str) : Except Unit (List (List Str × List Str)) :=
  if !docoptLanguageOk doc then .ok []
  else
    match getSectionPy (S "usage") doc with
    | .error e => .error e
    | .ok none => .error ()
    | .ok (some sec) =>
      .ok ((parseSectionGo (splitLines (dedent (sec.drop 7))) []).map parseCmdTokens)

/-- The command loop of `_wrap_usage_section`: each command is rendered
at a fixed indent and its arguments wrapped to the remaining width
(negative remaining width raises textwrap's `ValueError`). -/
def usageLinesGo (w : Nat) : List (List Str × List Str) → Except Unit (List Str)
  | [] => .ok []
  | (commands, args) :: rest =>
    let command := S "  " ++ joinWith [' '] commands ++ [' ']
    match textwrapWrap true ((w : Int) - command.length) (joinWith [' '] args) with
    | .error e => .error e
    | .ok pieces =>
      match usageLinesGo w rest with
      | .error e => .error e
      | .ok ls =>
        .ok (splitLines (command ++
          joinWith ('\n' :: List.replicate command.length ' ') pieces) ++ ls)

/-- Embeds `_wrap_usage_section`: returns the section unchanged when no
line exceeds the width, otherwise rebuilds it from the parsed
commands. -/
def wrapUsageSection (source : Str) (w : Nat) : Except Unit Str :=
  if !(splitLines source).any (fun l => decide (l.length > w)) then .ok source
  else
    match charIndex ':' source with
    | none => .error ()
    | some i =>
      match parseCommandsPy source with
      | .error e => .error e
      | .ok cmds =>
        match usageLinesGo w cmds with
        | .error e => .error e
        | .ok ls => .ok (joinWith ['\n'] (stripWs (source.take (i + 1)) :: ls))

/-- The prose path of `_wrap_section`: wrap each cleaned line with
`replace_whitespace=False` and flatten. -/
def proseGo (w : Nat) : List Str → Except Unit (List Str)
  | [] => .ok []
  | l :: rest =>
    match textwrapWrap false (w : Int) l with
    | .error e => .error e
    | .ok ps =>
      match proseGo w rest with
      | .error e => .error e
      | .ok rs => .ok (ps ++ rs)

/-- Embeds `_wrap_section`: usage sections, then definition sections,
then prose. -/
def wrapSection (source : Str) (w : Nat) : Except Unit Str :=
  match getSectionPy (S "usage") source with
  | .error e => .error e
  | .ok usec =>
    if truthyOpt usec then wrapUsageSection source w
    else if isDefinitionSection source then wrapDefinitionSection source w
    else
      match proseGo w (splitLines (cleandoc source)) with
      | .error e => .error e
      | .ok pieces => .ok (joinWith ['\n'] pieces)

/-- Wraps every stripped section of the document. -/
def wrapAllGo (w : Nat) : List Str → Except Unit (List Str)
  | [] => .ok []
  | s :: rest =>
    match wrapSection (stripWs s) w with
    | .error e => .error e
    | .ok t =>
      match wrapAllGo w rest with
      | .error e => .error e
      | .ok ts => .ok (t :: ts)

/-- Embeds `format_usage(doc, width)`: strip carriage returns, split on
blank lines, wrap each stripped section, rejoin.  The width argument
models the resolved width (explicit argument, terminal width or 80). -/
def formatUsage (doc : Str) (w : Nat) : Except Unit Str :=
  match wrapAllGo w (splitNN (removeCR doc)) with
  | .error e => .error e
  | .ok ts => .ok (joinWith (S "\n\n") ts)

/-- Embeds `_merge_doc(original, to_merge)` at the resolved width `w`:
empty inputs short-circuit; otherwise exactly the `usage`, `arguments`
and `options` sections of the two documents are extracted, merged
pairwise, joined, right-stripped and re-formatted. -/
def mergeDoc (original toMerge : Str) (w : Nat) : Except Unit Str :=
  if original.isEmpty then .ok (if toMerge.isEmpty then [] else toMerge)
  else if toMerge.isEmpty then .ok original
  else do
    let u1 ← getSectionPy (S "usage") original
    let u2 ← getSectionPy (S "usage") toMerge
    let s1 ← mergeSectionPy u1 u2
    let a1 ← getSectionPy (S "arguments") original
    let a2 ← getSectionPy (S "arguments") toMerge
    let s2 ← mergeSectionPy a1 a2
    let o1 ← getSectionPy (S "options") original
    let o2 ← getSectionPy (S "options") toMerge
    let s3 ← mergeSectionPy o1 o2
    formatUsage (rstripWs (joinWith (S "\n\n") [s1, s2, s3])) w

/-! ### Lemmas on stripping, splitting and joining usage text -/

theorem head?_dropWhile {p : Char → Bool} {l : Str} {c : Char}
    (h : (l.dropWhile p).head? = some c) : p c = false := by
  induction l with
  | nil => simp [List.dropWhile] at h
  | cons a l ih =>
    rw [List.dropWhile_cons] at h
    by_cases hpa : p a = true
    · rw [if_pos hpa] at h; exact ih h
    · rw [if_neg hpa] at h
      have hac : a = c := by simpa using h
      subst hac
      simpa using hpa

theorem rstripWs_isPre (x : Str) : rstripWs x <+: x := by
  obtain ⟨t, ht⟩ : x.reverse.dropWhile pyIsSpace <:+ x.reverse :=
    List.dropWhile_suffix _
  refine ⟨t.reverse, ?_⟩
  have h2 := congrArg List.reverse ht
  simpa [rstripWs, List.reverse_append] using h2

/-- Stripping yields a contiguous piece of the original text. -/
theorem stripWs_within (s : Str) : stripWs s <:+: s := by
  have h1 : stripWs s <+: lstripWs s := rstripWs_isPre _
  have h2 : lstripWs s <:+ s := List.dropWhile_suffix _
  exact h1.isInfix.trans h2.isInfix

theorem head?_of_isPre {a b : Str} {c : Char} (h : a <+: b)
    (hc : a.head? = some c) : b.head? = some c := by
  obtain ⟨t, rfl⟩ := h
  cases a with
  | nil => simp at hc
  | cons x a2 => simpa using hc

theorem stripWs_head (s : Str) (c : Char) (h : (stripWs s).head? = some c) :
    pyIsSpace c = false := by
  have h2 : (lstripWs s).head? = some c := head?_of_isPre (rstripWs_isPre _) h
  exact head?_dropWhile h2

theorem stripWs_last (s : Str) (c : Char) (h : (stripWs s).getLast? = some c) :
    pyIsSpace c = false := by
  have h2 : ((lstripWs s).reverse.dropWhile pyIsSpace).head? = some c := by
    have h3 : stripWs s = ((lstripWs s).reverse.dropWhile pyIsSpace).reverse := rfl
    rw [h3, List.getLast?_reverse] at h
    exact h
  exact head?_dropWhile h2

theorem stripWs_eq_self (t : Str)
    (h1 : ∀ c, t.head? = some c → pyIsSpace c = false)
    (h2 : ∀ c, t.getLast? = some c → pyIsSpace c = false) : stripWs t = t := by
  have hl : lstripWs t = t := by
    cases t with
    | nil => rfl
    | cons c r =>
      have hc := h1 c rfl
      simp [lstripWs, List.dropWhile_cons, hc]
  rw [stripWs, hl]
  cases hlast : t.getLast? with
  | none =>
    have ht : t = [] := List.getLast?_eq_none_iff.mp hlast
    subst ht; rfl
  | some c =>
    have hc := h2 c hlast
    have hrev : t.reverse.head? = some c := by
      rw [List.head?_reverse]; exact hlast
    cases hr : t.reverse with
    | nil => rw [hr] at hrev; simp at hrev
    | cons d r2 =>
      rw [hr] at hrev
      simp at hrev
      subst hrev
      rw [rstripWs, hr, List.dropWhile_cons, if_neg (by simp [hc])]
      have h4 := congrArg List.reverse hr
      simpa using h4.symm

/-- `str.strip()` is idempotent. -/
theorem stripWs_idem (s : Str) : stripWs (stripWs s) = stripWs s :=
  stripWs_eq_self _ (stripWs_head s) (stripWs_last s)

/-- Conditional unfolding of `splitNN` at a cons cell that does not start
a blank-line separator. -/
theorem splitNN_cons_eq (c : Char) (rest : Str)
    (hg : ∀ r, c = '\n' → rest = '\n' :: r → False) :
    splitNN (c :: rest) =
      match splitNN rest with
      | [] => [[c]]
      | p :: ps => (c :: p) :: ps := by
  rw [splitNN.eq_def]
  split
  · rename_i heq; exact absurd heq (by simp)
  · rename_i r heq
    obtain ⟨hc, hr⟩ := List.cons_eq_cons.mp heq
    exact (hg r hc hr).elim
  · rename_i c2 r2 hg2 heq
    obtain ⟨hc, hr⟩ := List.cons_eq_cons.mp heq
    subst hc; subst hr; rfl

theorem splitNN_ne_nil (s : Str) : splitNN s ≠ [] := by
  induction s using splitNN.induct with
  | case1 => simp [splitNN]
  | case2 rest ih => intro h; simp [splitNN] at h
  | case3 c rest hg hnil ih =>
    rw [splitNN_cons_eq c rest hg, hnil]; simp
  | case4 c rest hg p0 ps0 heq ih =>
    rw [splitNN_cons_eq c rest hg, heq]; simp

/-- The first part of a split starts with the first character of the
source (or is empty). -/
theorem splitNN_head (s : Str) (p : Str) (ps : List Str)
    (h : splitNN s = p :: ps) : p = [] ∨ p.head? = s.head? := by
  induction s using splitNN.induct with
  | case1 =>
    left
    have h2 : ([] : Str) :: [] = p :: ps := h
    exact ((List.cons_eq_cons.mp h2).1).symm
  | case2 rest ih =>
    left
    have h2 : ([] : Str) :: splitNN rest = p :: ps := h
    exact ((List.cons_eq_cons.mp h2).1).symm
  | case3 c rest hg hnil ih =>
    right
    rw [splitNN_cons_eq c rest hg, hnil] at h
    have h2 := (List.cons_eq_cons.mp h).1
    rw [← h2]
    rfl
  | case4 c rest hg p0 ps0 heq ih =>
    right
    rw [splitNN_cons_eq c rest hg, heq] at h
    have h2 := (List.cons_eq_cons.mp h).1
    rw [← h2]
    rfl

/-- Each part of a blank-line split contains no blank-line separator, and
its characters come from the source. -/
theorem splitNN_chars (s : Str) :
    ∀ p ∈ splitNN s, (¬ ['\n', '\n'] <:+: p) ∧ ∀ c ∈ p, c ∈ s := by
  induction s using splitNN.induct with
  | case1 =>
    intro p hp
    have hp2 : p = [] := by simpa [splitNN] using hp
    subst hp2
    exact ⟨by simp, by simp⟩
  | case2 rest ih =>
    intro p hp
    have hp2 : p = [] ∨ p ∈ splitNN rest := by
      have h3 : splitNN ('\n' :: '\n' :: rest) = [] :: splitNN rest := rfl
      rw [h3] at hp
      exact List.mem_cons.mp hp
    rcases hp2 with rfl | hp2
    · exact ⟨by simp, by simp⟩
    · obtain ⟨h1, h2⟩ := ih p hp2
      exact ⟨h1, fun c hc => by simp [h2 c hc]⟩
  | case3 c rest hg hnil ih =>
    intro p hp
    rw [splitNN_cons_eq c rest hg, hnil] at hp
    have hp2 : p = [c] := by simpa using hp
    subst hp2
    constructor
    · intro hin
      have h3 := hin.sublist.length_le
      simp at h3
    · intro x hx
      simp at hx
      simp [hx]
  | case4 c rest hg p0 ps0 heq ih =>
    intro p hp
    rw [splitNN_cons_eq c rest hg, heq] at hp
    rcases List.mem_cons.mp hp with rfl | hp2
    · obtain ⟨h1, h2⟩ := ih p0 (by rw [heq]; exact List.mem_cons_self _ _)
      constructor
      · intro hin
        rcases List.infix_cons_iff.mp hin with hpre | hinf
        · obtain ⟨t, ht⟩ := hpre
          have ht2 : '\n' :: '\n' :: t = c :: p0 := ht
          have hc : c = '\n' := (List.cons_eq_cons.mp ht2).1.symm
          have hp0 : p0 = '\n' :: t := (List.cons_eq_cons.mp ht2).2.symm
          rcases splitNN_head rest p0 ps0 heq with hnil2 | hhead
          · rw [hp0] at hnil2; exact (List.cons_ne_nil _ _) hnil2
          · rw [hp0] at hhead
            cases rest with
            | nil => simp at hhead
            | cons d rs =>
              have hd : d = '\n' := by simpa using hhead.symm
              exact hg rs hc (by rw [hd])
        · exact h1 hinf
      · intro x hx
        rcases List.mem_cons.mp hx with rfl | hx2
        · exact List.mem_cons_self _ _
        · exact List.mem_cons_of_mem _ (h2 x hx2)
    · obtain ⟨h1, h2⟩ := ih p (by rw [heq]; exact List.mem_cons_of_mem _ hp2)
      exact ⟨h1, fun x hx => List.mem_cons_of_mem _ (h2 x hx)⟩

theorem infix_cons_of (c : Char) {l t : Str} (h : l <:+: t) : l <:+: c :: t := by
  obtain ⟨s1, s2, hs⟩ := h
  exact ⟨c :: s1, s2, by rw [← hs]; rfl⟩

/-- A text without blank-line separators splits into itself. -/
theorem splitNN_single (p : Str) (h : ¬ ['\n', '\n'] <:+: p) : splitNN p = [p] := by
  induction p with
  | nil => rfl
  | cons c p2 ih =>
    have hg : ∀ r, c = '\n' → p2 = '\n' :: r → False := by
      intro r hc hr
      exact h ⟨[], p2.drop 1, by rw [hc, hr]; rfl⟩
    rw [splitNN_cons_eq c p2 hg, ih (fun hin => h (infix_cons_of c hin))]

/-- Splitting cuts exactly at an appended blank-line separator when the
part before it is separator-free and does not end in a newline. -/
theorem splitNN_append (p t : Str) (h1 : ¬ ['\n', '\n'] <:+: p)
    (h2 : p.getLast? ≠ some '\n') :
    splitNN (p ++ '\n' :: '\n' :: t) = p :: splitNN t := by
  induction p with
  | nil => rfl
  | cons c p2 ih =>
    have hcn : ∀ r, c = '\n' → p2 ++ '\n' :: '\n' :: t = '\n' :: r → False := by
      intro r hc hr
      cases p2 with
      | nil =>
        rw [hc] at h2
        simp at h2
      | cons d p3 =>
        have hd : d = '\n' := by
          have h4 := congrArg List.head? hr
          simpa using h4
        exact h1 ⟨[], p3, by rw [hc, hd]; rfl⟩
    rw [show (c :: p2) ++ '\n' :: '\n' :: t = c :: (p2 ++ '\n' :: '\n' :: t) from rfl]
    rw [splitNN_cons_eq c _ hcn]
    rw [ih (fun hin => h1 (infix_cons_of c hin)) ?hlast]
    case hlast =>
      intro hl
      cases p2 with
      | nil => simp at hl
      | cons d p3 =>
        apply h2
        rw [List.getLast?_cons_cons]
        exact hl

theorem joinWith_cons₂ (sep s r : Str) (rest : List Str) :
    joinWith sep (s :: r :: rest) = s ++ (sep ++ joinWith sep (r :: rest)) := by
  show s ++ sep ++ joinWith sep (r :: rest) = _
  rw [List.append_assoc]

/-- Splitting on blank lines inverts joining with blank lines, for
separator-free parts that do not end in a newline. -/
theorem splitNN_joinWith (ps : List Str) (hne : ps ≠ [])
    (h : ∀ p ∈ ps, (¬ ['\n', '\n'] <:+: p) ∧ p.getLast? ≠ some '\n') :
    splitNN (joinWith ['\n', '\n'] ps) = ps := by
  induction ps with
  | nil => exact absurd rfl hne
  | cons p ps ih =>
    cases ps with
    | nil => exact splitNN_single p (h p (List.mem_cons_self _ _)).1
    | cons q qs =>
      rw [joinWith_cons₂]
      rw [show (['\n', '\n'] : Str) ++ joinWith ['\n', '\n'] (q :: qs) =
        '\n' :: '\n' :: joinWith ['\n', '\n'] (q :: qs) from rfl]
      rw [splitNN_append p _ (h p (List.mem_cons_self _ _)).1
        (h p (List.mem_cons_self _ _)).2]
      rw [ih (by simp) (fun r hr => h r (List.mem_cons_of_mem _ hr))]

theorem joinWith_chars (sep : Str) (ps : List Str) :
    ∀ c ∈ joinWith sep ps, c ∈ sep ∨ ∃ p ∈ ps, c ∈ p := by
  induction ps with
  | nil => intro c hc; simp [joinWith] at hc
  | cons p ps ih =>
    cases ps with
    | nil =>
      intro c hc
      right
      exact ⟨p, List.mem_cons_self _ _, hc⟩
    | cons q qs =>
      intro c hc
      rw [joinWith_cons₂] at hc
      rcases List.mem_append.mp hc with hm | hm
      · right; exact ⟨p, List.mem_cons_self _ _, hm⟩
      · rcases List.mem_append.mp hm with hm2 | hm2
        · left; exact hm2
        · rcases ih c hm2 with hm3 | ⟨r, hr, hcr⟩
          · left; exact hm3
          · right; exact ⟨r, List.mem_cons_of_mem _ hr, hcr⟩

theorem removeCR_noCR (doc : Str) : ∀ c ∈ removeCR doc, ¬ c = '\r' := by
  intro c hc
  have h2 := List.of_mem_filter hc
  simpa using h2

theorem removeCR_eq_self (s : Str) (h : ∀ c ∈ s, ¬ c = '\r') : removeCR s = s :=
  List.filter_eq_self.mpr (fun a ha => by simpa using h a ha)

/-- The section is a truthy usage section: `_get_section('usage', s)`
succeeds with a non-empty result. -/
def usageTruthy (s : Str) : Bool :=
  match getSectionPy (S "usage") s with
  | .ok (some sec) => !sec.isEmpty
  | _ => false

/-- Every line of the text fits within the width. -/
def linesFit (s : Str) (w : Nat) : Bool :=
  (splitLines s).all (fun l => decide (l.length ≤ w))

/-- A truthy usage section whose lines all fit the width is returned
unchanged by `_wrap_section` (the early return of
`_wrap_usage_section`). -/
theorem wrapSection_fixed (t : Str) (w : Nat) (hu : usageTruthy t = true)
    (hf : linesFit t w = true) : wrapSection t w = .ok t := by
  unfold usageTruthy at hu
  cases hgs : getSectionPy (S "usage") t with
  | error e => rw [hgs] at hu; simp at hu
  | ok osec =>
    rw [hgs] at hu
    cases osec with
    | none => simp at hu
    | some sec =>
      have hany : (splitLines t).any (fun l => decide (l.length > w)) = false := by
        by_contra hcon
        rw [Bool.not_eq_false, List.any_eq_true] at hcon
        obtain ⟨l, hl, hlen⟩ := hcon
        have hle := List.all_eq_true.mp hf l hl
        simp at hle hlen
        omega
      unfold wrapSection
      rw [hgs]
      have htr : truthyOpt (some sec) = true := hu
      simp only [htr, if_true]
      unfold wrapUsageSection
      rw [hany]
      simp

theorem wrapAllGo_fixed (w : Nat) (ps : List Str)
    (h : ∀ s ∈ ps, usageTruthy (stripWs s) = true ∧ linesFit (stripWs s) w = true) :
    wrapAllGo w ps = .ok (ps.map stripWs) := by
  induction ps with
  | nil => rfl
  | cons s ps ih =>
    obtain ⟨hu, hf⟩ := h s (List.mem_cons_self _ _)
    unfold wrapAllGo
    rw [wrapSection_fixed _ _ hu hf, ih (fun r hr => h r (List.mem_cons_of_mem _ hr))]
    rfl

/-- C5 counterexample: reflow (`format_usage`) is not idempotent.  At
width 20 (which is at least 20), the definition section
`Options:\n  -x  aaaa bbbb cccc dddd eeee` is first rewrapped to a
two-line definition section; reflowing that result again no longer
recognises it as a definition section (its first body line has no
leading double space after dedent) and reflows it as prose via
`inspect.cleandoc`, which removes the two-space indentation — so the
second reflow changes the document again. -/
theorem format_usage_reflow_not_idempotent :
    formatUsage (S "Options:\n  -x  aaaa bbbb cccc dddd eeee") 20 =
      .ok (S "Options:\n  -x  aaaa bbbb cccc\n      dddd eeee") ∧
    formatUsage (S "Options:\n  -x  aaaa bbbb cccc\n      dddd eeee") 20 =
      .ok (S "Options:\n-x  aaaa bbbb cccc\n    dddd eeee") ∧
    S "Options:\n-x  aaaa bbbb cccc\n    dddd eeee" ≠
      S "Options:\n  -x  aaaa bbbb cccc\n      dddd eeee" :=
  ⟨rfl, rfl, by decide⟩

/-- C5 as amended: reflow is idempotent on documents all of whose
stripped blank-line sections are truthy usage sections with every line
already within the width (such sections take the early unchanged return
of `_wrap_usage_section`): the first reflow strips each section, and that
output is a fixed point of further reflows at the same width. -/
theorem format_usage_idempotent_on_fitting_usage_docs (doc : Str) (w : Nat)
    (h : ∀ s ∈ splitNN (removeCR doc),
      usageTruthy (stripWs s) = true ∧ linesFit (stripWs s) w = true) :
    ∃ r, formatUsage doc w = .ok r ∧ formatUsage r w = .ok r := by
  have hwrap1 : wrapAllGo w (splitNN (removeCR doc)) =
      .ok ((splitNN (removeCR doc)).map stripWs) := wrapAllGo_fixed w _ h
  refine ⟨joinWith (S "\n\n") ((splitNN (removeCR doc)).map stripWs), ?_, ?_⟩
  · unfold formatUsage
    rw [hwrap1]
  · have hgood : ∀ q ∈ (splitNN (removeCR doc)).map stripWs,
        (¬ ['\n', '\n'] <:+: q) ∧ q.getLast? ≠ some '\n' := by
      intro q hq
      obtain ⟨p, hp, rfl⟩ := List.mem_map.mp hq
      constructor
      · intro hin
        exact (splitNN_chars _ p hp).1 (hin.trans (stripWs_within p))
      · intro hl
        have h3 := stripWs_last p _ hl
        simp [pyIsSpace] at h3
    have hnoCR : ∀ c ∈ joinWith (S "\n\n") ((splitNN (removeCR doc)).map stripWs),
        ¬ c = '\r' := by
      intro c hc
      rcases joinWith_chars _ _ c hc with hm | ⟨q, hq, hcq⟩
      · intro he
        subst he
        simp [S] at hm
      · obtain ⟨p, hp, rfl⟩ := List.mem_map.mp hq
        have hcp : c ∈ p := (stripWs_within p).sublist.subset hcq
        exact removeCR_noCR doc c ((splitNN_chars _ p hp).2 c hcp)
    have hsplit2 : splitNN (removeCR (joinWith (S "\n\n")
        ((splitNN (removeCR doc)).map stripWs))) =
        (splitNN (removeCR doc)).map stripWs := by
      rw [removeCR_eq_self _ hnoCR]
      rw [show (S "\n\n") = ['\n', '\n'] from rfl]
      refine splitNN_joinWith _ ?_ hgood
      intro hmap
      exact splitNN_ne_nil (removeCR doc) (List.map_eq_nil_iff.mp hmap)
    have hstrip2 : ∀ s ∈ (splitNN (removeCR doc)).map stripWs,
        usageTruthy (stripWs s) = true ∧ linesFit (stripWs s) w = true := by
      intro s hs
      obtain ⟨p, hp, rfl⟩ := List.mem_map.mp hs
      rw [stripWs_idem]
      exact h p hp
    have hwrap2 := wrapAllGo_fixed w _ hstrip2
    have hmapmap : ((splitNN (removeCR doc)).map stripWs).map stripWs =
        (splitNN (removeCR doc)).map stripWs := by
      rw [List.map_map]
      refine List.map_congr_left ?_
      intro p hp
      exact stripWs_idem p
    unfold formatUsage
    rw [hsplit2, hwrap2, hmapmap]

theorem format_usage_idempotent_on_fitting_usage_docs_witness :
    ∃ r, formatUsage (S "Usage:\n  prog demo") 30 = .ok r ∧
      formatUsage r 30 = .ok r :=
  format_usage_idempotent_on_fitting_usage_docs _ 30 (by decide)

/-- C4 counterexample: `_merge_doc` drops every section other than
`usage`, `arguments` and `options`.  Merging a document that carries an
`Examples` section with another usage document yields a result that does
not contain the string `Examples` at all, so the section is not
preserved verbatim. -/
theorem merge_doc_drops_examples_section :
    mergeDoc (S "Usage:\n  prog foo\n\nExamples:\n  prog foo 1")
        (S "Usage:\n  prog bar") 80 =
      .ok (S "Usage:\n  prog foo\n  prog bar") ∧
    subFind (S "Examples") (S "Usage:\n  prog foo\n  prog bar") = false :=
  ⟨rfl, rfl⟩

/-- C4 as amended: when both inputs are non-empty, the result of
`_merge_doc` is a function of the two documents' `usage`, `arguments`
and `options` sections only (plus their emptiness); every other section
of either input has no influence on — and hence is dropped from — the
merged result.  (With an empty input the other document is returned
wholesale.) -/
theorem merge_doc_merges_only_named_sections :
    (∀ (a a2 b : Str) (w : Nat),
        a.isEmpty = a2.isEmpty → b.isEmpty = false →
        getSectionPy (S "usage") a = getSectionPy (S "usage") a2 →
        getSectionPy (S "arguments") a = getSectionPy (S "arguments") a2 →
        getSectionPy (S "options") a = getSectionPy (S "options") a2 →
        mergeDoc a b w = mergeDoc a2 b w) ∧
    (∀ (a b b2 : Str) (w : Nat),
        a.isEmpty = false → b.isEmpty = b2.isEmpty →
        getSectionPy (S "usage") b = getSectionPy (S "usage") b2 →
        getSectionPy (S "arguments") b = getSectionPy (S "arguments") b2 →
        getSectionPy (S "options") b = getSectionPy (S "options") b2 →
        mergeDoc a b w = mergeDoc a b2 w) := by
  constructor
  · intro a a2 b w he hb hu ha ho
    unfold mergeDoc
    rw [he, hb, hu, ha, ho]
    simp
  · intro a b b2 w ha2 he hu ha ho
    unfold mergeDoc
    rw [ha2, he, hu, ha, ho]
    simp

theorem merge_doc_merges_only_named_sections_witness :
    mergeDoc (S "Usage:\n  prog foo\n\nExamples:\n  prog foo 1")
        (S "Usage:\n  prog bar") 80 =
      mergeDoc (S "Usage:\n  prog foo") (S "Usage:\n  prog bar") 80 :=
  merge_doc_merges_only_named_sections.1 _ _ _ 80 rfl rfl rfl rfl rfl

end RCli
